import Mathlib

/-!
# AVL tree of strings (`src/avl/AVL.h`, `src/avl/AVL.cpp`)

A shallow embedding of the repository's AVL tree and a verification of its
insertion, rebalancing, lookup and range-count operations.  The definitions of
the tree come first, then those of the repository's linked list, then the
theorems about the tree and, last, those about the list.

## Data model

* A `Node*` of the source is a value of `Node`: `Node.null` is `NULL`, and
  `Node.mk key left right parent height subsize` is a pointer to a heap node
  with these six fields (`AVL.h`, class `Node`).  The two owning references
  `left` and `right` are the subtrees themselves.
* The non-owning `parent` back-reference is a `Ref`: `none` for `NULL`,
  `some k` for a pointer to the node that holds key `k`.
* `std::string` keys are `String`; `<`, `>` and `==` on them are the
  lexicographic order of `String`.
* `int` fields are `Int`.  Stored heights and sizes never exceed the number of
  nodes, so the 32-bit range is not modelled.
* Dereferencing `NULL` is a fault: the functions that can do it
  (`leftRotate`, `rightRotate`, and their callers) return `Option`, `none`
  being the fault.
* The in-place updates of the source are explicit state passing: a function
  that mutates the subtree below a pointer returns the updated subtree.
-/

/-- A reference to a node, as stored in `Node::parent`: `none` is `NULL`,
`some k` points at the node holding key `k`. -/
abbrev Ref := Option String

/-- A value of type `Node*`: `null` is `NULL`, `mk` a node with the fields of
class `Node` in `AVL.h`. -/
inductive Node where
  | null : Node
  | mk (key : String) (left right : Node) (parent : Ref) (height subsize : Int) : Node
  deriving DecidableEq, Repr

/-- Class `AVL`: its only data member is `root`. -/
structure AVL where
  root : Node
  deriving DecidableEq, Repr

namespace Node

/-- The pointer value of a node, as it is written into a `parent` field. -/
def ref : Node → Ref
  | null => none
  | mk k _ _ _ _ _ => some k

/-- Constructor `Node(string k)`: no children, no parent, height 0, subsize 1. -/
def new (k : String) : Node := mk k null null none 0 1

/-- Inorder traversal: the keys of the left subtree, the key, the keys of the
right subtree. -/
def toList : Node → List String
  | null => []
  | mk k l r _ _ _ => toList l ++ k :: toList r

/-- True height in edges; an absent subtree has height -1. -/
def trueHeight : Node → Int
  | null => -1
  | mk _ l r _ _ _ => 1 + max (trueHeight l) (trueHeight r)

/-- Number of nodes of a subtree. -/
def count : Node → Nat
  | null => 0
  | mk _ l r _ _ _ => 1 + count l + count r

end Node

namespace AVL

open Node

/-- Constructor `AVL::AVL()`: the empty tree. -/
def empty : AVL := ⟨null⟩

/-! ### Accessors -/

/-- The function `AVL::getHeight`: stored height, -1 for `NULL`. -/
def getHeight : Node → Int
  | null => -1
  | Node.mk _ _ _ _ h _ => h

/-- The function `AVL::getBalance`: 0 for `NULL`, else
`getHeight(n->left) - getHeight(n->right)`. -/
def getBalance : Node → Int
  | null => 0
  | Node.mk _ l r _ _ _ => getHeight l - getHeight r

/-- The function `AVL::getSubsize`: stored subtree size, 0 for `NULL`. -/
def getSubsize : Node → Int
  | null => 0
  | Node.mk _ _ _ _ _ s => s

/-! ### Mutators -/

/-- The function `AVL::setHeight`: no effect when `n` is `NULL` or `h < 0`. -/
def setHeight : Node → Int → Node
  | null, _ => null
  | Node.mk k l r p ht s, h => if h < 0 then Node.mk k l r p ht s else Node.mk k l r p h s

/-- The function `AVL::setSubsize`: no effect when `n` is `NULL` or `s < 0`. -/
def setSubsize : Node → Int → Node
  | null, _ => null
  | Node.mk k l r p h sz, s => if s < 0 then Node.mk k l r p h sz else Node.mk k l r p h s

/-- The function `AVL::setParent`: no effect when `n` is `NULL`. -/
def setParent : Node → Ref → Node
  | null, _ => null
  | Node.mk k l r _ h s, p => Node.mk k l r p h s

/-- The assignment `n->left = c`; `none` when `n` is `NULL`. -/
def setLeft : Node → Node → Option Node
  | null, _ => none
  | Node.mk k _ r p h s, c => some (Node.mk k c r p h s)

/-- The assignment `n->right = c`; `none` when `n` is `NULL`. -/
def setRight : Node → Node → Option Node
  | null, _ => none
  | Node.mk k l _ p h s, c => some (Node.mk k l c p h s)

/-! ### Rotations -/

/-- The function `AVL::leftRotate`.  `x` and `y = x->right` are dereferenced
without a check.  After step 2 the node `x` is reachable as `y->left`, so the
writes to `x` in steps 3 and 4 are seen through `y`; the result is `y` with
the final `x` as its left child.  The write `root = y`, taken when `x` is the
tree root, is the value the caller `insert` assigns to `root` from the
returned pointer. -/
def leftRotate : Node → Option Node
  | Node.mk xk xl (Node.mk yk t2 yr _ yh ys) xp xh xs =>
    -- STEP 1: setParent(y, x->parent); setParent(x, y); setParent(t2, x)
    let t2 := setParent t2 (some xk)
    -- STEP 2: x->right = t2; y->left = x
    let x := Node.mk xk xl t2 (some yk) xh xs
    -- STEP 3: heights of x, then y
    let x := setHeight x (max (getHeight xl) (getHeight t2) + 1)
    let y := setHeight (Node.mk yk x yr xp yh ys) (max (getHeight x) (getHeight yr) + 1)
    -- STEP 4: subsize of y from the old subsize of x, then subsize of x
    let y := setSubsize y (getSubsize x)
    let x := setSubsize x (getSubsize xl + getSubsize t2 + 1)
    setLeft y x
  | _ => none

/-- The function `AVL::rightRotate`, the mirror image of `leftRotate`:
`x = y->left`, `t2 = x->right`. -/
def rightRotate : Node → Option Node
  | Node.mk yk (Node.mk xk xl t2 _ xh xs) yr yp yh ys =>
    -- STEP 1: setParent(x, y->parent); setParent(y, x); setParent(t2, y)
    let t2 := setParent t2 (some yk)
    -- STEP 2: y->left = t2; x->right = y
    let y := Node.mk yk t2 yr (some xk) yh ys
    -- STEP 3: heights of y, then x
    let y := setHeight y (max (getHeight t2) (getHeight yr) + 1)
    let x := setHeight (Node.mk xk xl y yp xh xs) (max (getHeight xl) (getHeight y) + 1)
    -- STEP 4: subsize of x from the old subsize of y, then subsize of y
    let x := setSubsize x (getSubsize y)
    let y := setSubsize y (getSubsize t2 + getSubsize yr + 1)
    setRight x y
  | _ => none

/-- The function `AVL::fixBalance`. -/
def fixBalance (n : Node) : Option Node :=
  let bal := getBalance n
  if bal > 1 then
    match n with
    | null => none
    | Node.mk k l r p h s =>
      if getBalance l ≥ 1 then rightRotate (Node.mk k l r p h s)
      else do
        let l ← leftRotate l
        rightRotate (Node.mk k l r p h s)
  else if bal < -1 then
    match n with
    | null => none
    | Node.mk k l r p h s =>
      if getBalance r ≤ -1 then leftRotate (Node.mk k l r p h s)
      else do
        let r ← rightRotate r
        leftRotate (Node.mk k l r p h s)
  else some n

/-! ### Insertion -/

/-- The function `AVL::insert(Node* start, Node* to_insert)`; the result is
the subtree below `start` after the call (the pointer `start` itself is not
changed by the source). -/
def insertNode : Node → Node → Option Node
  | null, _ => some null
  | Node.mk _ _ _ _ _ _, null => none
  | Node.mk key l r p h s, Node.mk k tl tr tp th ts =>
    if k < key then
      if l = null then
        let start := Node.mk key (setParent (Node.mk k tl tr tp th ts) (some key)) r p h s
        let start := setHeight start 1
        some (setSubsize start (2 + getSubsize r))
      else do
        let l ← insertNode l (Node.mk k tl tr tp th ts)
        let l ← fixBalance l
        let new_height := 1 + max (getHeight l) (getHeight r)
        let start := setHeight (Node.mk key l r p h s) new_height
        some (setSubsize start (1 + getSubsize l + getSubsize r))
    else if k > key then
      if r = null then
        let start := Node.mk key l (setParent (Node.mk k tl tr tp th ts) (some key)) p h s
        let start := setHeight start 1
        some (setSubsize start (2 + getSubsize l))
      else do
        let r ← insertNode r (Node.mk k tl tr tp th ts)
        let r ← fixBalance r
        let new_height := 1 + max (getHeight l) (getHeight r)
        let start := setHeight (Node.mk key l r p h s) new_height
        some (setSubsize start (1 + getSubsize l + getSubsize r))
    else some (Node.mk key l r p h s)

/-- The function `AVL::insert(string k)`. -/
def insert (t : AVL) (k : String) : Option AVL :=
  let to_insert := Node.new k
  if t.root = null then some ⟨to_insert⟩
  else do
    let root ← insertNode t.root to_insert
    let root ← fixBalance root
    some ⟨root⟩

/-- A sequence of `insert` calls, first key first. -/
def insertAll : AVL → List String → Option AVL
  | t, [] => some t
  | t, k :: ks => (insert t k).bind fun t => insertAll t ks

/-- The tree after inserting the keys `ks`, in order, into the empty tree. -/
def build (ks : List String) : Option AVL := insertAll empty ks

/-! ### Lookup -/

/-- The function `AVL::find(Node* start, string k)`. -/
def findNode : Node → String → Node
  | null, _ => null
  | Node.mk key l r p h s, k =>
    if key = k then Node.mk key l r p h s
    else if k < key then findNode l k
    else findNode r k

/-- The function `AVL::find(string k)`. -/
def find (t : AVL) (k : String) : Node := findNode t.root k

/-! ### Range queries -/

/-- The function `AVL::leq`. -/
def leq : Node → String → Int
  | null, _ => 0
  | Node.mk key l r _ _ _, k =>
    if key = k then 1 + getSubsize l
    else if key > k then leq l k
    else 1 + getSubsize l + leq r k

/-- The function `AVL::geq`. -/
def geq : Node → String → Int
  | null, _ => 0
  | Node.mk key l r _ _ _, k =>
    if key = k then 1 + getSubsize r
    else if key < k then geq r k
    else 1 + getSubsize r + geq l k

/-- The function `AVL::range(Node* start, string k1, string k2)`. -/
def rangeNode : Node → String → String → Int
  | null, _, _ => 0
  | Node.mk key l r _ _ _, k1, k2 =>
    if k2 < key then rangeNode l k1 k2
    else if k1 > key then rangeNode r k1 k2
    else 1 + geq l k1 + leq r k2

/-- The function `AVL::range(string k1, string k2)`. -/
def range (t : AVL) (k1 k2 : String) : Int := rangeNode t.root k1 k2

/-! ### Diagnostic traversal -/

/-- The function `AVL::printPreOrder(Node* start)`. -/
def printPreOrderNode : Node → String
  | null => ""
  | Node.mk key l r p h s =>
    let leftpart := printPreOrderNode l
    let rightpart := printPreOrderNode r
    let output := key ++ "(h = " ++ toString (getHeight (Node.mk key l r p h s)) ++
      ", s = " ++ toString (getSubsize (Node.mk key l r p h s)) ++ ")"
    let output := if leftpart.length ≠ 0 then output ++ leftpart else output
    let output := if rightpart.length ≠ 0 then output ++ rightpart else output
    output

/-- The function `AVL::printPreOrder()`. -/
def printPreOrder (t : AVL) : String := printPreOrderNode t.root

/-! ### Specification vocabulary -/

/-- The non-null subtrees of a tree, one for each node, in preorder. -/
def subtrees : Node → List Node
  | null => []
  | Node.mk k l r p h s => Node.mk k l r p h s :: (subtrees l ++ subtrees r)

/-- The stored `parent` field of a node (`NULL` for an absent node). -/
def getParent : Node → Ref
  | null => none
  | Node.mk _ _ _ p _ _ => p

/-- The working invariant of insertion, on stored fields: at every node the
stored height and subsize are the recursive ones and the stored heights of the
two children differ by at most one. -/
def Good : Node → Prop
  | null => True
  | Node.mk _ l r _ h s =>
    Good l ∧ Good r ∧ h = 1 + max (getHeight l) (getHeight r) ∧
      s = 1 + getSubsize l + getSubsize r ∧
      getHeight l ≤ getHeight r + 1 ∧ getHeight r ≤ getHeight l + 1

/-- Stored subsizes are the recursive ones at every node. -/
def SizeOk : Node → Prop
  | null => True
  | Node.mk _ l r _ _ s => SizeOk l ∧ SizeOk r ∧ s = 1 + getSubsize l + getSubsize r

/-- BST order: the inorder key sequence is strictly increasing. -/
def Sorted (t : Node) : Prop := (toList t).Pairwise (· < ·)

/-- Parent back-references are consistent below a node whose own parent
reference is `p`. -/
def ParentOk : Ref → Node → Prop
  | _, null => True
  | p, Node.mk k l r par _ _ => par = p ∧ ParentOk (some k) l ∧ ParentOk (some k) r

/-- What insertion of the key `k` below a node with parent reference `p` has
to establish: `t` is the subtree before, `t2` the subtree that replaces it
after `insertNode` and `fixBalance`.  The height grows by at most one, and a
subtree that grew is not evenly balanced unless it is a single leaf. -/
def InsPost (k : String) (p : Ref) (t t2 : Node) : Prop :=
  Good t2 ∧ t2 ≠ null ∧
    (getHeight t2 = getHeight t ∨
      (getHeight t2 = getHeight t + 1 ∧ (getBalance t2 ≠ 0 ∨ getHeight t2 = 0))) ∧
    Sorted t2 ∧ (∀ x, x ∈ toList t2 ↔ x = k ∨ x ∈ toList t) ∧ ParentOk p t2 ∧
    (k ∈ toList t → t2 = t)

/-- The invariant of the whole tree: the working invariant, BST order, and
consistent parent references with an absent parent at the root. -/
def TreeInv (t : AVL) : Prop :=
  Good t.root ∧ Sorted t.root ∧ ParentOk none t.root

/-- Stored heights and subsizes are the recursive ones at every node. -/
def StoredOk : Node → Prop
  | null => True
  | Node.mk _ l r _ h s =>
    StoredOk l ∧ StoredOk r ∧ h = 1 + max (getHeight l) (getHeight r) ∧
      s = 1 + getSubsize l + getSubsize r

/-- Balance invariant with correct stored heights: at every node the stored
height is the recursive one and the heights of the two children differ by at
most one. -/
def HeightBal : Node → Prop
  | null => True
  | Node.mk _ l r _ h _ =>
    HeightBal l ∧ HeightBal r ∧ h = 1 + max (getHeight l) (getHeight r) ∧
      getHeight l ≤ getHeight r + 1 ∧ getHeight r ≤ getHeight l + 1

/-- A subtree root with balance factor 2 whose left child is evenly balanced:
keys "a" to "i", stored heights, sizes and parent references all current. -/
def evenChildTree : Node :=
  Node.mk "h"
    (Node.mk "d"
      (Node.mk "b" (Node.mk "a" null null (some "b") 0 1) null (some "d") 1 2)
      (Node.mk "f" null (Node.mk "g" null null (some "f") 0 1) (some "d") 1 2)
      (some "h") 2 5)
    (Node.mk "i" null null (some "h") 0 1)
    none 3 7

/-- What `fixBalance` returns on `evenChildTree`: the node "d" is left with a
left subtree of height 1 and no right subtree. -/
def evenChildResult : Node :=
  Node.mk "f"
    (Node.mk "d"
      (Node.mk "b" (Node.mk "a" null null (some "b") 0 1) null (some "d") 1 2)
      null (some "f") 2 3)
    (Node.mk "h" (Node.mk "g" null null (some "h") 0 1) (Node.mk "i" null null (some "h") 0 1)
      (some "f") 1 3)
    none 3 7

/-! ### The calls made during an insertion -/

/-- A call of `fixBalance`, `leftRotate` or `rightRotate`, with its argument. -/
inductive Call where
  | fixBalance (n : Node) : Call
  | leftRotate (x : Node) : Call
  | rightRotate (y : Node) : Call

/-- The field `n->left` (`NULL` for an absent node). -/
def getLeft : Node → Node
  | null => null
  | Node.mk _ l _ _ _ _ => l

/-- The field `n->right` (`NULL` for an absent node). -/
def getRight : Node → Node
  | null => null
  | Node.mk _ _ r _ _ _ => r

/-- The rotation calls that `fixBalance n` makes, in order, following the
branches of `fixBalance`. -/
def fixBalanceCalls (n : Node) : List Call :=
  let bal := getBalance n
  if bal > 1 then
    match n with
    | null => []
    | Node.mk k l r p h s =>
      if getBalance l ≥ 1 then [Call.rightRotate (Node.mk k l r p h s)]
      else
        Call.leftRotate l ::
          match leftRotate l with
          | none => []
          | some l => [Call.rightRotate (Node.mk k l r p h s)]
  else if bal < -1 then
    match n with
    | null => []
    | Node.mk k l r p h s =>
      if getBalance r ≤ -1 then [Call.leftRotate (Node.mk k l r p h s)]
      else
        Call.rightRotate r ::
          match rightRotate r with
          | none => []
          | some r => [Call.leftRotate (Node.mk k l r p h s)]
  else []

/-- The calls made by the statement `x = fixBalance(x)` applied to the result
`res` of a preceding step: the call itself and its rotations; nothing when the
preceding step faulted. -/
def fixCalls (res : Option Node) : List Call :=
  match res with
  | none => []
  | some n => Call.fixBalance n :: fixBalanceCalls n

/-- The calls of `fixBalance` and of the rotations made during
`insert(start, to_insert)`, in order, following the branches of `insertNode`. -/
def insertNodeCalls : Node → Node → List Call
  | null, _ => []
  | Node.mk _ _ _ _ _ _, null => []
  | Node.mk key l r _ _ _, Node.mk k tl tr tp th ts =>
    if k < key then
      if l = null then []
      else insertNodeCalls l (Node.mk k tl tr tp th ts) ++
        fixCalls (insertNode l (Node.mk k tl tr tp th ts))
    else if k > key then
      if r = null then []
      else insertNodeCalls r (Node.mk k tl tr tp th ts) ++
        fixCalls (insertNode r (Node.mk k tl tr tp th ts))
    else []

/-- The calls of `fixBalance` and of the rotations made during `insert(k)`. -/
def insertCalls (t : AVL) (k : String) : List Call :=
  if t.root = null then []
  else insertNodeCalls t.root (Node.new k) ++ fixCalls (insertNode t.root (Node.new k))

/-- What is demanded of a call: `fixBalance` sees a balance factor in
[-2, 2]; a rotation is applied to a present node whose pivot child is
present. -/
def Call.Safe : Call → Prop
  | Call.fixBalance n => -2 ≤ getBalance n ∧ getBalance n ≤ 2
  | Call.leftRotate x => x ≠ null ∧ getRight x ≠ null
  | Call.rightRotate y => y ≠ null ∧ getLeft y ≠ null

end AVL

/-!
# Singly linked list of integers (`src/linkedlist/LinkedList.h`, `src/linkedlist/LinkedList.cpp`)

The list owns a chain of nodes `(data, next)` from `head`.  `sort` swaps the
data of nodes and never relinks them, so a node is identified by its position
in the chain and the chain is the `List Int` of its data.  `int` data are
`Int`: they are only compared and printed.  Dereferencing `NULL` is a fault,
`none`; the `do ... while` loop of `sort` takes fuel, one unit for each pass.
-/

/-- Class `LinkedList` of `src/linkedlist/LinkedList.h`: the chain of nodes
from `head`, as the list of their `data` fields in order (`NULL` is `[]`, a
node is its data followed by the chain `next`). -/
structure LinkedList where
  head : List Int
  deriving DecidableEq, Repr

namespace LinkedList

/-- Constructor `LinkedList::LinkedList()`. -/
def empty : LinkedList := ⟨[]⟩

/-- The function `LinkedList::insert`: a new node in front of the old head. -/
def insert (l : LinkedList) (x : Int) : LinkedList := ⟨x :: l.head⟩

/-- The inner `while (a->next != b)` loop of `sort(Node* start)`.  The list is
split at the pointer `a`: `pre` holds the data of the nodes before `a`, `a` is
`a->data`, and the third argument the data of the chain `a->next`.  A pointer
is the position of its node from `start` (`none` is `NULL`), so `a` is at
position `pre.length`.  The result is the data of the whole list, the
position of `a` and the flag `isSwapped` when the loop exits; it is `none`
when `a->next` is `NULL` and differs from `b`, the loop body then reading
`a->next->data`. -/
def sortPass (b : Option Nat) : List Int → Int → List Int → Bool →
    Option (List Int × Nat × Bool)
  | pre, a, [], isSwapped =>
    if none = b then some (pre ++ [a], pre.length, isSwapped) else none
  | pre, a, c :: rest, isSwapped =>
    if some (pre.length + 1) = b then some (pre ++ a :: c :: rest, pre.length, isSwapped)
    else if a > c then sortPass b (pre ++ [c]) a rest true
    else sortPass b (pre ++ [a]) c rest isSwapped

/-- The `do ... while (isSwapped)` loop of `sort(Node* start)`, with fuel for
the number of passes; `b` is the pointer `b` at the start of the pass. -/
def sortLoop : Nat → Option Nat → List Int → Option (List Int)
  | 0, _, _ => none
  | fuel + 1, b, start =>
    match start with
    | [] => none
    | a :: rest =>
      match sortPass b [] a rest false with
      | none => none
      | some (data, a, isSwapped) =>
        if isSwapped then sortLoop fuel (some a) data else some data

/-- The function `LinkedList::sort(Node* start)`: nothing to do on `NULL`,
else the passes with `b` initially `NULL`. -/
def sortFrom (fuel : Nat) (start : List Int) : Option (List Int) :=
  if start = [] then some start else sortLoop fuel none start

/-- The function `LinkedList::sort()`. -/
def sort (fuel : Nat) (l : LinkedList) : Option LinkedList :=
  (sortFrom fuel l.head).map LinkedList.mk

/-- The `while (curr->next != NULL)` loop of `print` and the statement after
it: `list_str`, `curr->data` and the chain `curr->next`. -/
def printLoop : String → Int → List Int → String
  | list_str, d, [] => list_str ++ toString d
  | list_str, d, x :: rest => printLoop (list_str ++ toString d ++ " -> ") x rest

/-- The function `LinkedList::print`: `curr = head` is dereferenced without a
check, which is a fault (`none`) on the empty list. -/
def print (l : LinkedList) : Option String :=
  match l.head with
  | [] => none
  | d :: rest => some (printLoop "" d rest)

/-- The rendering that `print` is meant to return: the decimal data from head
to tail separated by " -> ". -/
def render : List Int → String
  | [] => ""
  | [d] => toString d
  | d :: x :: rest => toString d ++ " -> " ++ render (x :: rest)

end LinkedList

namespace AVL

open Node

/-! ## Basic facts about the accessors and mutators -/

@[simp] theorem getHeight_null : getHeight null = -1 := rfl

@[simp] theorem getHeight_mk (k : String) (l r : Node) (p : Ref) (h s : Int) :
    getHeight (Node.mk k l r p h s) = h := rfl

@[simp] theorem getSubsize_null : getSubsize null = 0 := rfl

@[simp] theorem getSubsize_mk (k : String) (l r : Node) (p : Ref) (h s : Int) :
    getSubsize (Node.mk k l r p h s) = s := rfl

@[simp] theorem getBalance_mk (k : String) (l r : Node) (p : Ref) (h s : Int) :
    getBalance (Node.mk k l r p h s) = getHeight l - getHeight r := rfl

theorem setHeight_mk (k : String) (l r : Node) (p : Ref) (h s h1 : Int) :
    setHeight (Node.mk k l r p h s) h1 =
      if h1 < 0 then Node.mk k l r p h s else Node.mk k l r p h1 s := rfl

theorem setSubsize_mk (k : String) (l r : Node) (p : Ref) (h s s1 : Int) :
    setSubsize (Node.mk k l r p h s) s1 =
      if s1 < 0 then Node.mk k l r p h s else Node.mk k l r p h s1 := rfl

@[simp] theorem getHeight_setParent (t : Node) (p : Ref) :
    getHeight (setParent t p) = getHeight t := by
  cases t <;> rfl

@[simp] theorem getSubsize_setParent (t : Node) (p : Ref) :
    getSubsize (setParent t p) = getSubsize t := by
  cases t <;> rfl

@[simp] theorem toList_setParent (t : Node) (p : Ref) :
    toList (setParent t p) = toList t := by
  cases t <;> rfl

@[simp] theorem good_setParent (t : Node) (p : Ref) :
    Good (setParent t p) ↔ Good t := by
  cases t <;> simp [setParent, Good]

theorem good_height_ge {t : Node} (h : Good t) : -1 ≤ getHeight t := by
  induction t with
  | null => simp
  | mk k l r p ht s ihl ihr =>
    obtain ⟨hl, hr, hh, -, -, -⟩ := h
    have := ihl hl
    have := ihr hr
    simp only [getHeight_mk]
    omega

theorem good_size_ge {t : Node} (h : Good t) : 0 ≤ getSubsize t := by
  induction t with
  | null => simp
  | mk k l r p ht s ihl ihr =>
    obtain ⟨hl, hr, -, hs, -, -⟩ := h
    have := ihl hl
    have := ihr hr
    simp only [getSubsize_mk]
    omega

/-- Explicit result of `leftRotate` when the guards of the setters pass. -/
theorem leftRotate_eq (xk yk : String) (xl t2 yr : Node) (xp yp : Ref) (xh xs yh ys : Int)
    (h1 : -1 ≤ getHeight xl) (h2 : -1 ≤ getHeight t2) (h3 : -1 ≤ getHeight yr)
    (s1 : 0 ≤ getSubsize xl) (s2 : 0 ≤ getSubsize t2) (s3 : 0 ≤ xs) :
    leftRotate (Node.mk xk xl (Node.mk yk t2 yr yp yh ys) xp xh xs) =
      some (Node.mk yk
        (Node.mk xk xl (setParent t2 (some xk)) (some yk)
          (max (getHeight xl) (getHeight t2) + 1) (getSubsize xl + getSubsize t2 + 1))
        yr xp (max (max (getHeight xl) (getHeight t2) + 1) (getHeight yr) + 1) xs) := by
  have e1 : ¬ (max (getHeight xl) (getHeight t2) + 1 < 0) := by omega
  have e2 : ¬ (max (max (getHeight xl) (getHeight t2) + 1) (getHeight yr) + 1 < 0) := by omega
  have e3 : ¬ (xs < 0) := by omega
  have e4 : ¬ (getSubsize xl + getSubsize t2 + 1 < 0) := by omega
  simp [leftRotate, setHeight_mk, setSubsize_mk, setLeft, e1, e2, e3, e4]

/-- Explicit result of `rightRotate` when the guards of the setters pass. -/
theorem rightRotate_eq (xk yk : String) (xl t2 yr : Node) (xp yp : Ref) (xh xs yh ys : Int)
    (h1 : -1 ≤ getHeight xl) (h2 : -1 ≤ getHeight t2) (h3 : -1 ≤ getHeight yr)
    (s1 : 0 ≤ getSubsize yr) (s2 : 0 ≤ getSubsize t2) (s3 : 0 ≤ ys) :
    rightRotate (Node.mk yk (Node.mk xk xl t2 xp xh xs) yr yp yh ys) =
      some (Node.mk xk xl
        (Node.mk yk (setParent t2 (some yk)) yr (some xk)
          (max (getHeight t2) (getHeight yr) + 1) (getSubsize t2 + getSubsize yr + 1))
        yp (max (getHeight xl) (max (getHeight t2) (getHeight yr) + 1) + 1) ys) := by
  have e1 : ¬ (max (getHeight t2) (getHeight yr) + 1 < 0) := by omega
  have e2 : ¬ (max (getHeight xl) (max (getHeight t2) (getHeight yr) + 1) + 1 < 0) := by omega
  have e3 : ¬ (ys < 0) := by omega
  have e4 : ¬ (getSubsize t2 + getSubsize yr + 1 < 0) := by omega
  simp [rightRotate, setHeight_mk, setSubsize_mk, setRight, e1, e2, e3, e4]

/-! ## Rebalancing -/

/-- What `fixBalance` does at a node whose subtrees satisfy the invariant,
whose stored height and subsize are current and whose children differ in
height by at most two, the taller child not being evenly balanced when the
difference is two: it does not fault, it re-establishes the invariant, it is
the identity when the node is balanced, and a rotation lowers the height by
one. -/
theorem fixBalance_spec (k : String) (l r : Node) (p : Ref) (h s : Int)
    (gl : Good l) (gr : Good r)
    (hh : h = 1 + max (getHeight l) (getHeight r))
    (hs : s = 1 + getSubsize l + getSubsize r)
    (b1 : getHeight l ≤ getHeight r + 2) (b2 : getHeight r ≤ getHeight l + 2)
    (c1 : getHeight l = getHeight r + 2 → getBalance l ≠ 0)
    (c2 : getHeight r = getHeight l + 2 → getBalance r ≠ 0) :
    ∃ n, fixBalance (Node.mk k l r p h s) = some n ∧ Good n ∧ getSubsize n = s ∧ n ≠ null ∧
      ((getHeight l ≤ getHeight r + 1 ∧ getHeight r ≤ getHeight l + 1) →
        n = Node.mk k l r p h s) ∧
      ((getHeight l = getHeight r + 2 ∨ getHeight r = getHeight l + 2) →
        getHeight n = h - 1) := by
  have hl1 := good_height_ge gl
  have hr1 := good_height_ge gr
  have sl1 := good_size_ge gl
  have sr1 := good_size_ge gr
  by_cases hA : getHeight l - getHeight r > 1
  · -- left-heavy
    have hlr : getHeight l = getHeight r + 2 := by omega
    cases l with
    | null => simp at hlr; omega
    | mk xk xl xr xp xh xs =>
      obtain ⟨gxl, gxr, hxh, hxs, bx1, bx2⟩ := gl
      have hxl1 := good_height_ge gxl
      have hxr1 := good_height_ge gxr
      have sxl1 := good_size_ge gxl
      have sxr1 := good_size_ge gxr
      have hb := c1 hlr
      simp only [getBalance_mk, getHeight_mk, getSubsize_mk] at *
      by_cases hB : getHeight xl - getHeight xr ≥ 1
      · have e := rightRotate_eq xk k xl xr r xp p xh xs h s hxl1 hxr1 hr1 sr1 sxr1 (by omega)
        have e1 : fixBalance (Node.mk k (Node.mk xk xl xr xp xh xs) r p h s) =
            rightRotate (Node.mk k (Node.mk xk xl xr xp xh xs) r p h s) := by
          simp only [fixBalance, getBalance_mk, getHeight_mk, if_pos hA, if_pos hB]
        refine ⟨_, e1.trans e, ?_⟩
        · simp only [Good, good_setParent, getHeight_mk, getSubsize_mk, getHeight_setParent,
            getSubsize_setParent]
          refine ⟨⟨gxl, ⟨gxr, gr, ?_, ?_, ?_, ?_⟩, ?_, ?_, ?_, ?_⟩, ?_, ?_, ?_, ?_⟩ <;>
            first | omega | simp
      · cases xr with
        | null => simp at *; omega
        | mk zk zl zr zp zh zs =>
          obtain ⟨gzl, gzr, hzh, hzs, bz1, bz2⟩ := gxr
          have hzl1 := good_height_ge gzl
          have hzr1 := good_height_ge gzr
          have szl1 := good_size_ge gzl
          have szr1 := good_size_ge gzr
          simp only [getBalance_mk, getHeight_mk, getSubsize_mk] at *
          have e0 := leftRotate_eq xk zk xl zl zr xp zp xh xs zh zs hxl1 hzl1 hzr1 sxl1 szl1
            (by omega)
          have e := rightRotate_eq zk k _ zr r xp p
            (max (max (getHeight xl) (getHeight zl) + 1) (getHeight zr) + 1) xs h s
            (show -1 ≤ getHeight (Node.mk xk xl (setParent zl (some xk)) (some zk)
              (max (getHeight xl) (getHeight zl) + 1) (getSubsize xl + getSubsize zl + 1)) by
                simp only [getHeight_mk]; omega) hzr1 hr1 sr1 szr1 (by omega)
          have e1 : fixBalance (Node.mk k (Node.mk xk xl (Node.mk zk zl zr zp zh zs) xp xh xs) r p h s) =
              (leftRotate (Node.mk xk xl (Node.mk zk zl zr zp zh zs) xp xh xs)).bind
                fun l => rightRotate (Node.mk k l r p h s) := by
            simp only [fixBalance, getBalance_mk, getHeight_mk, if_pos hA, if_neg hB]
            rfl
          rw [e0, Option.some_bind] at e1
          refine ⟨_, e1.trans e, ?_⟩
          · simp only [Good, good_setParent, getHeight_mk, getSubsize_mk, getHeight_setParent,
              getSubsize_setParent]
            refine ⟨⟨⟨gxl, gzl, ?_, ?_, ?_, ?_⟩, ⟨gzr, gr, ?_, ?_, ?_, ?_⟩, ?_, ?_, ?_, ?_⟩,
              ?_, ?_, ?_, ?_⟩ <;> first | omega | simp
  · by_cases hC : getHeight l - getHeight r < -1
    · -- right-heavy
      have hlr : getHeight r = getHeight l + 2 := by omega
      cases r with
      | null => simp at hlr; omega
      | mk yk yl yr yp yh ys =>
        obtain ⟨gyl, gyr, hyh, hys, by1, by2⟩ := gr
        have hyl1 := good_height_ge gyl
        have hyr1 := good_height_ge gyr
        have syl1 := good_size_ge gyl
        have syr1 := good_size_ge gyr
        have hb := c2 hlr
        simp only [getBalance_mk, getHeight_mk, getSubsize_mk] at *
        by_cases hB : getHeight yl - getHeight yr ≤ -1
        · have e := leftRotate_eq k yk l yl yr p yp h s yh ys hl1 hyl1 hyr1 sl1 syl1 (by omega)
          have e1 : fixBalance (Node.mk k l (Node.mk yk yl yr yp yh ys) p h s) =
              leftRotate (Node.mk k l (Node.mk yk yl yr yp yh ys) p h s) := by
            simp only [fixBalance, getBalance_mk, getHeight_mk, if_neg hA, if_pos hC, if_pos hB]
          refine ⟨_, e1.trans e, ?_⟩
          · simp only [Good, good_setParent, getHeight_mk, getSubsize_mk, getHeight_setParent,
              getSubsize_setParent]
            refine ⟨⟨⟨gl, gyl, ?_, ?_, ?_, ?_⟩, gyr, ?_, ?_, ?_, ?_⟩, ?_, ?_, ?_, ?_⟩ <;>
              first | omega | simp
        · cases yl with
          | null => simp at *; omega
          | mk zk zl zr zp zh zs =>
            obtain ⟨gzl, gzr, hzh, hzs, bz1, bz2⟩ := gyl
            have hzl1 := good_height_ge gzl
            have hzr1 := good_height_ge gzr
            have szl1 := good_size_ge gzl
            have szr1 := good_size_ge gzr
            simp only [getBalance_mk, getHeight_mk, getSubsize_mk] at *
            have e0 := rightRotate_eq zk yk zl zr yr zp yp zh zs yh ys hzl1 hzr1 hyr1 syr1 szr1
              (by omega)
            have e := leftRotate_eq k zk l zl _ p yp h s
              (max (getHeight zl) (max (getHeight zr) (getHeight yr) + 1) + 1) ys hl1 hzl1
              (show -1 ≤ getHeight (Node.mk yk (setParent zr (some yk)) yr (some zk)
                (max (getHeight zr) (getHeight yr) + 1) (getSubsize zr + getSubsize yr + 1)) by
                  simp only [getHeight_mk]; omega) sl1 szl1 (by omega)
            have e1 : fixBalance
                (Node.mk k l (Node.mk yk (Node.mk zk zl zr zp zh zs) yr yp yh ys) p h s) =
                (rightRotate (Node.mk yk (Node.mk zk zl zr zp zh zs) yr yp yh ys)).bind
                  fun r => leftRotate (Node.mk k l r p h s) := by
              simp only [fixBalance, getBalance_mk, getHeight_mk, if_neg hA, if_pos hC, if_neg hB]
              rfl
            rw [e0, Option.some_bind] at e1
            refine ⟨_, e1.trans e, ?_⟩
            · simp only [Good, good_setParent, getHeight_mk, getSubsize_mk, getHeight_setParent,
                getSubsize_setParent]
              refine ⟨⟨⟨gl, gzl, ?_, ?_, ?_, ?_⟩, ⟨gzr, gyr, ?_, ?_, ?_, ?_⟩, ?_, ?_, ?_, ?_⟩,
                ?_, ?_, ?_, ?_⟩ <;> first | omega | simp
    · -- balanced
      have e1 : fixBalance (Node.mk k l r p h s) = some (Node.mk k l r p h s) := by
        simp only [fixBalance, getBalance_mk, if_neg hA, if_neg hC]
      refine ⟨_, e1, ⟨gl, gr, hh, hs, by omega, by omega⟩, rfl, by simp, fun _ => rfl, ?_⟩
      intro hcontra
      omega

/-! ## Insertion: the four paths of `insertNode` -/

theorem insertNode_left_leaf (key k : String) (r : Node) (p : Ref) (h s : Int)
    (hlt : k < key) (hs : 0 ≤ getSubsize r) :
    insertNode (Node.mk key null r p h s) (Node.new k) =
      some (Node.mk key (Node.mk k null null (some key) 0 1) r p 1 (2 + getSubsize r)) := by
  have e : ¬ (2 + getSubsize r < 0) := by omega
  simp [insertNode, Node.new, hlt, setParent, setHeight_mk, setSubsize_mk, e]

theorem insertNode_right_leaf (key k : String) (l : Node) (p : Ref) (h s : Int)
    (hgt : key < k) (hs : 0 ≤ getSubsize l) :
    insertNode (Node.mk key l null p h s) (Node.new k) =
      some (Node.mk key l (Node.mk k null null (some key) 0 1) p 1 (2 + getSubsize l)) := by
  have e : ¬ (2 + getSubsize l < 0) := by omega
  have hlt : ¬ k < key := not_lt.mpr hgt.le
  simp [insertNode, Node.new, hlt, hgt, setParent, setHeight_mk, setSubsize_mk, e]

theorem insertNode_left (key k : String) (l r l1 l2 : Node) (p : Ref) (h s : Int)
    (hlt : k < key) (hl : l ≠ null)
    (e1 : insertNode l (Node.new k) = some l1) (e2 : fixBalance l1 = some l2)
    (h1 : -1 ≤ getHeight l2) (h2 : -1 ≤ getHeight r)
    (s1 : 0 ≤ getSubsize l2) (s2 : 0 ≤ getSubsize r) :
    insertNode (Node.mk key l r p h s) (Node.new k) =
      some (Node.mk key l2 r p (1 + max (getHeight l2) (getHeight r))
        (1 + getSubsize l2 + getSubsize r)) := by
  have e3 : ¬ (1 + max (getHeight l2) (getHeight r) < 0) := by omega
  have e4 : ¬ (1 + getSubsize l2 + getSubsize r < 0) := by omega
  simp only [Node.new] at e1
  simp [insertNode, Node.new, hlt, hl, e1, e2, setHeight_mk, setSubsize_mk, e3, e4]

theorem insertNode_right (key k : String) (l r r1 r2 : Node) (p : Ref) (h s : Int)
    (hgt : key < k) (hr : r ≠ null)
    (e1 : insertNode r (Node.new k) = some r1) (e2 : fixBalance r1 = some r2)
    (h1 : -1 ≤ getHeight l) (h2 : -1 ≤ getHeight r2)
    (s1 : 0 ≤ getSubsize l) (s2 : 0 ≤ getSubsize r2) :
    insertNode (Node.mk key l r p h s) (Node.new k) =
      some (Node.mk key l r2 p (1 + max (getHeight l) (getHeight r2))
        (1 + getSubsize l + getSubsize r2)) := by
  have e3 : ¬ (1 + max (getHeight l) (getHeight r2) < 0) := by omega
  have e4 : ¬ (1 + getSubsize l + getSubsize r2 < 0) := by omega
  have hlt : ¬ k < key := not_lt.mpr hgt.le
  simp only [Node.new] at e1
  simp [insertNode, Node.new, hlt, hgt, hr, e1, e2, setHeight_mk, setSubsize_mk, e3, e4]

theorem insertNode_dup (key : String) (l r : Node) (p : Ref) (h s : Int) :
    insertNode (Node.mk key l r p h s) (Node.new key) = some (Node.mk key l r p h s) := by
  simp [insertNode, Node.new]

/-! ## What the rotations keep: keys in order and parent references -/

/-- Shape of the result of `leftRotate`, whatever the setters' guards do. -/
theorem leftRotate_shape (xk yk : String) (xl t2 yr : Node) (xp yp : Ref) (xh xs yh ys : Int) :
    ∃ h1 s1 h2 s2, leftRotate (Node.mk xk xl (Node.mk yk t2 yr yp yh ys) xp xh xs) =
      some (Node.mk yk (Node.mk xk xl (setParent t2 (some xk)) (some yk) h1 s1) yr xp h2 s2) := by
  simp only [leftRotate, setHeight_mk]
  split_ifs <;> simp only [setSubsize_mk] <;> split_ifs <;> exact ⟨_, _, _, _, rfl⟩

/-- Shape of the result of `rightRotate`, whatever the setters' guards do. -/
theorem rightRotate_shape (xk yk : String) (xl t2 yr : Node) (xp yp : Ref) (xh xs yh ys : Int) :
    ∃ h1 s1 h2 s2, rightRotate (Node.mk yk (Node.mk xk xl t2 xp xh xs) yr yp yh ys) =
      some (Node.mk xk xl (Node.mk yk (setParent t2 (some yk)) yr (some xk) h1 s1) yp h2 s2) := by
  simp only [rightRotate, setHeight_mk]
  split_ifs <;> simp only [setSubsize_mk] <;> split_ifs <;> exact ⟨_, _, _, _, rfl⟩

theorem parentOk_setParent {t : Node} {q : Ref} (p : Ref) (h : ParentOk q t) :
    ParentOk p (setParent t p) := by
  cases t with
  | null => trivial
  | mk k l r par ht s => exact ⟨rfl, h.2.1, h.2.2⟩

theorem leftRotate_keeps {x y : Node} (p : Ref) (e : leftRotate x = some y) :
    toList y = toList x ∧ (ParentOk p x → ParentOk p y) := by
  cases x with
  | null => simp [leftRotate] at e
  | mk xk xl xr xp xh xs =>
    cases xr with
    | null => simp [leftRotate] at e
    | mk yk t2 yr yp yh ys =>
      obtain ⟨h1, s1, h2, s2, e1⟩ := leftRotate_shape xk yk xl t2 yr xp yp xh xs yh ys
      rw [e1] at e
      cases e
      refine ⟨by simp [toList], ?_⟩
      rintro ⟨hp, hxl, -, ht2, hyr⟩
      exact ⟨hp, ⟨rfl, hxl, parentOk_setParent _ ht2⟩, hyr⟩

theorem rightRotate_keeps {x y : Node} (p : Ref) (e : rightRotate y = some x) :
    toList x = toList y ∧ (ParentOk p y → ParentOk p x) := by
  cases y with
  | null => simp [rightRotate] at e
  | mk yk yl yr yp yh ys =>
    cases yl with
    | null => simp [rightRotate] at e
    | mk xk xl t2 xp xh xs =>
      obtain ⟨h1, s1, h2, s2, e1⟩ := rightRotate_shape xk yk xl t2 yr xp yp xh xs yh ys
      rw [e1] at e
      cases e
      refine ⟨by simp [toList], ?_⟩
      rintro ⟨hp, ⟨-, hxl, ht2⟩, hyr⟩
      exact ⟨hp, hxl, ⟨rfl, parentOk_setParent _ ht2, hyr⟩⟩

theorem fixBalance_keeps {n m : Node} (p : Ref) (e : fixBalance n = some m) :
    toList m = toList n ∧ (ParentOk p n → ParentOk p m) := by
  unfold fixBalance at e
  simp only at e
  split_ifs at e with hA hC
  · cases n with
    | null => simp at e
    | mk k l r q h s =>
      simp only at e
      split_ifs at e with hB
      · exact rightRotate_keeps p e
      · cases hl : leftRotate l with
        | none => simp [hl] at e
        | some l1 =>
          simp only [hl, Option.bind_eq_bind, Option.some_bind] at e
          obtain ⟨t1, p1⟩ := leftRotate_keeps (some k) hl
          obtain ⟨t2, p2⟩ := rightRotate_keeps p e
          refine ⟨by rw [t2]; simp [toList, t1], ?_⟩
          rintro ⟨hp, hl0, hr0⟩
          exact p2 ⟨hp, p1 hl0, hr0⟩
  · cases n with
    | null => simp at e
    | mk k l r q h s =>
      simp only at e
      split_ifs at e with hB
      · exact leftRotate_keeps p e
      · cases hr : rightRotate r with
        | none => simp [hr] at e
        | some r1 =>
          simp only [hr, Option.bind_eq_bind, Option.some_bind] at e
          obtain ⟨t1, p1⟩ := rightRotate_keeps (some k) hr
          obtain ⟨t2, p2⟩ := leftRotate_keeps p e
          refine ⟨by rw [t2]; simp [toList, t1], ?_⟩
          rintro ⟨hp, hl0, hr0⟩
          exact p2 ⟨hp, hl0, p1 hr0⟩
  · cases e
    exact ⟨rfl, id⟩

theorem sorted_mk (k : String) (l r : Node) (p : Ref) (h s : Int) :
    Sorted (Node.mk k l r p h s) ↔
      Sorted l ∧ Sorted r ∧ (∀ x ∈ toList l, x < k) ∧ (∀ x ∈ toList r, k < x) := by
  simp only [Sorted, toList, List.pairwise_append, List.pairwise_cons, List.mem_cons]
  constructor
  · rintro ⟨hl, ⟨hk, hr⟩, hx⟩
    exact ⟨hl, hr, fun x hx1 => hx x hx1 k (Or.inl rfl), hk⟩
  · rintro ⟨hl, hr, h1, h2⟩
    refine ⟨hl, ⟨h2, hr⟩, ?_⟩
    rintro x hx y (rfl | hy)
    · exact h1 x hx
    · exact lt_trans (h1 x hx) (h2 y hy)

/-! ## Insertion re-establishes the invariants -/

/-- One unwinding step on the left: the left subtree `l` of a good node has
been replaced by `l2`, the heights and sizes recomputed; `fixBalance` then
yields a subtree that is a correct replacement for the whole node. -/
theorem left_step (k key : String) (l r l2 : Node) (p q : Ref) (h s : Int)
    (hlt : k < key) (hg : Good (Node.mk key l r q h s)) (hs : Sorted (Node.mk key l r q h s))
    (hp : ParentOk p (Node.mk key l r q h s)) (post : InsPost k (some key) l l2) :
    ∃ t2, fixBalance (Node.mk key l2 r q (1 + max (getHeight l2) (getHeight r))
        (1 + getSubsize l2 + getSubsize r)) = some t2 ∧
      InsPost k p (Node.mk key l r q h s) t2 := by
  obtain ⟨gl, gr, hh, hsz, b1, b2⟩ := hg
  obtain ⟨gl2, nl2, grow, sl2, ml2, pl2, dupl⟩ := post
  obtain ⟨sl, sr, ltl, ltr⟩ := (sorted_mk _ _ _ _ _ _).1 hs
  obtain ⟨hq, pl, pr⟩ := hp
  have hl1 := good_height_ge gl
  have hr1 := good_height_ge gr
  have hl2 := good_height_ge gl2
  have c0 : getHeight l2 = getHeight l ∨ getHeight l2 = getHeight l + 1 := by
    rcases grow with g | g
    · exact Or.inl g
    · exact Or.inr g.1
  have c1 : getHeight l2 = getHeight r + 2 → getBalance l2 ≠ 0 := by
    intro h2
    rcases grow with g | ⟨-, g | g⟩
    · omega
    · exact g
    · omega
  have c2 : getHeight r = getHeight l2 + 2 → getBalance r ≠ 0 := by
    intro h2
    omega
  obtain ⟨n, e, gn, sn, nn, hid, hrot⟩ := fixBalance_spec key l2 r q
    (1 + max (getHeight l2) (getHeight r)) (1 + getSubsize l2 + getSubsize r) gl2 gr rfl rfl
    (by omega) (by omega) c1 c2
  obtain ⟨tn, pn⟩ := fixBalance_keeps p e
  have hmem : ∀ x, x ∈ toList n ↔ x = k ∨ x ∈ toList (Node.mk key l r q h s) := by
    intro x
    rw [tn]
    have := ml2 x
    simp only [toList, List.mem_append, List.mem_cons]
    rw [this, or_assoc]
  refine ⟨n, e, gn, nn, ?_, ?_, hmem, pn ⟨hq, pl2, pr⟩, ?_⟩
  · by_cases hb : getHeight l2 ≤ getHeight r + 1
    · have hn := hid ⟨hb, by omega⟩
      subst hn
      simp only [getHeight_mk, getBalance_mk]
      omega
    · have hn := hrot (Or.inl (by omega))
      simp only [getHeight_mk]
      omega
  · have : Sorted (Node.mk key l2 r q (1 + max (getHeight l2) (getHeight r))
        (1 + getSubsize l2 + getSubsize r)) := by
      rw [sorted_mk]
      refine ⟨sl2, sr, ?_, ltr⟩
      intro x hx
      rcases (ml2 x).1 hx with rfl | hx
      · exact hlt
      · exact ltl x hx
    unfold Sorted at this ⊢
    rw [tn]
    exact this
  · intro hk
    have hkl : k ∈ toList l := by
      simp only [toList, List.mem_append, List.mem_cons] at hk
      rcases hk with hk | rfl | hk
      · exact hk
      · exact absurd hlt (lt_irrefl _)
      · exact absurd (lt_trans hlt (ltr k hk)) (lt_irrefl _)
    have e2 := dupl hkl
    subst e2
    have hn := hid ⟨b1, b2⟩
    rw [hn, hh, hsz]

/-- One unwinding step on the right, the mirror image of `left_step`. -/
theorem right_step (k key : String) (l r r2 : Node) (p q : Ref) (h s : Int)
    (hgt : key < k) (hg : Good (Node.mk key l r q h s)) (hs : Sorted (Node.mk key l r q h s))
    (hp : ParentOk p (Node.mk key l r q h s)) (post : InsPost k (some key) r r2) :
    ∃ t2, fixBalance (Node.mk key l r2 q (1 + max (getHeight l) (getHeight r2))
        (1 + getSubsize l + getSubsize r2)) = some t2 ∧
      InsPost k p (Node.mk key l r q h s) t2 := by
  obtain ⟨gl, gr, hh, hsz, b1, b2⟩ := hg
  obtain ⟨gr2, nr2, grow, sr2, mr2, pr2, dupr⟩ := post
  obtain ⟨sl, sr, ltl, ltr⟩ := (sorted_mk _ _ _ _ _ _).1 hs
  obtain ⟨hq, pl, pr⟩ := hp
  have hl1 := good_height_ge gl
  have hr1 := good_height_ge gr
  have hr2 := good_height_ge gr2
  have c0 : getHeight r2 = getHeight r ∨ getHeight r2 = getHeight r + 1 := by
    rcases grow with g | g
    · exact Or.inl g
    · exact Or.inr g.1
  have c1 : getHeight l = getHeight r2 + 2 → getBalance l ≠ 0 := by
    intro h2
    omega
  have c2 : getHeight r2 = getHeight l + 2 → getBalance r2 ≠ 0 := by
    intro h2
    rcases grow with g | ⟨-, g | g⟩
    · omega
    · exact g
    · omega
  obtain ⟨n, e, gn, sn, nn, hid, hrot⟩ := fixBalance_spec key l r2 q
    (1 + max (getHeight l) (getHeight r2)) (1 + getSubsize l + getSubsize r2) gl gr2 rfl rfl
    (by omega) (by omega) c1 c2
  obtain ⟨tn, pn⟩ := fixBalance_keeps p e
  have hmem : ∀ x, x ∈ toList n ↔ x = k ∨ x ∈ toList (Node.mk key l r q h s) := by
    intro x
    rw [tn]
    have := mr2 x
    simp only [toList, List.mem_append, List.mem_cons]
    rw [this]
    constructor
    · rintro (h1 | h1 | h1 | h1)
      · exact Or.inr (Or.inl h1)
      · exact Or.inr (Or.inr (Or.inl h1))
      · exact Or.inl h1
      · exact Or.inr (Or.inr (Or.inr h1))
    · rintro (h1 | h1 | h1 | h1)
      · exact Or.inr (Or.inr (Or.inl h1))
      · exact Or.inl h1
      · exact Or.inr (Or.inl h1)
      · exact Or.inr (Or.inr (Or.inr h1))
  refine ⟨n, e, gn, nn, ?_, ?_, hmem, pn ⟨hq, pl, pr2⟩, ?_⟩
  · by_cases hb : getHeight r2 ≤ getHeight l + 1
    · have hn := hid ⟨by omega, hb⟩
      subst hn
      simp only [getHeight_mk, getBalance_mk]
      omega
    · have hn := hrot (Or.inr (by omega))
      simp only [getHeight_mk]
      omega
  · have : Sorted (Node.mk key l r2 q (1 + max (getHeight l) (getHeight r2))
        (1 + getSubsize l + getSubsize r2)) := by
      rw [sorted_mk]
      refine ⟨sl, sr2, ltl, ?_⟩
      intro x hx
      rcases (mr2 x).1 hx with rfl | hx
      · exact hgt
      · exact ltr x hx
    unfold Sorted at this ⊢
    rw [tn]
    exact this
  · intro hk
    have hkr : k ∈ toList r := by
      simp only [toList, List.mem_append, List.mem_cons] at hk
      rcases hk with hk | rfl | hk
      · exact absurd (lt_trans hgt (ltl k hk)) (lt_irrefl _)
      · exact absurd hgt (lt_irrefl _)
      · exact hk
    have e2 := dupr hkr
    subst e2
    have hn := hid ⟨b1, b2⟩
    rw [hn, hh, hsz]

/-- A fresh leaf is a correct replacement for an absent subtree. -/
theorem insPost_leaf (k : String) (p : Ref) :
    InsPost k p null (Node.mk k null null p 0 1) := by
  refine ⟨⟨trivial, trivial, by simp, by simp, by simp, by simp⟩, by simp, Or.inr ⟨by simp, Or.inr rfl⟩,
    ?_, ?_, ⟨rfl, trivial, trivial⟩, ?_⟩
  · simp [Sorted, toList]
  · intro x
    simp [toList]
  · intro hk
    simp [toList] at hk

/-- The recursive `insertNode` followed by `fixBalance`, as every caller does
it, does not fault on a good, ordered subtree and re-establishes all
invariants. -/
theorem insertNode_fix (k : String) : ∀ (t : Node) (p : Ref), t ≠ null → Good t → Sorted t →
    ParentOk p t →
    ∃ t1 t2, insertNode t (Node.new k) = some t1 ∧ fixBalance t1 = some t2 ∧
      InsPost k p t t2 := by
  intro t
  induction t with
  | null => intro p hn; exact absurd rfl hn
  | mk key l r q h s ihl ihr =>
    intro p _ hg hs hp
    have gl := hg.1
    have gr := hg.2.1
    obtain ⟨sl, sr, ltl, ltr⟩ := (sorted_mk _ _ _ _ _ _).1 hs
    have pl := hp.2.1
    have pr := hp.2.2
    rcases lt_trichotomy k key with hlt | heq | hgt
    · by_cases hl : l = null
      · subst hl
        have post := insPost_leaf k (some key)
        obtain ⟨t2, e2, post2⟩ := left_step k key null r _ p q h s hlt hg hs hp post
        have e1 := insertNode_left_leaf key k r q h s hlt (good_size_ge gr)
        have hr0 : getHeight r ≤ 0 := by
          have := hg.2.2.2.2.2
          simp only [getHeight_null] at this
          omega
        have hr1 := good_height_ge gr
        have eh : (1 : Int) + max (getHeight (Node.mk k null null (some key) 0 1)) (getHeight r) = 1 := by
          simp only [getHeight_mk]
          omega
        have es : 1 + getSubsize (Node.mk k null null (some key) 0 1) + getSubsize r =
            2 + getSubsize r := by
          simp only [getSubsize_mk]
          omega
        rw [eh, es] at e2
        exact ⟨_, t2, e1, e2, post2⟩
      · obtain ⟨l1, l2, e1, e2, post⟩ := ihl (some key) hl gl sl pl
        obtain ⟨t2, e3, post2⟩ := left_step k key l r l2 p q h s hlt hg hs hp post
        have e := insertNode_left key k l r l1 l2 q h s hlt hl e1 e2
          (good_height_ge post.1) (good_height_ge gr) (good_size_ge post.1) (good_size_ge gr)
        exact ⟨_, t2, e, e3, post2⟩
    · subst heq
      obtain ⟨n, e, gn, sn, nn, hid, hrot⟩ := fixBalance_spec k l r q h s gl gr hg.2.2.1
        hg.2.2.2.1 (by have := hg.2.2.2.2.1; omega) (by have := hg.2.2.2.2.2; omega)
        (by intro h2; have := hg.2.2.2.2.1; omega) (by intro h2; have := hg.2.2.2.2.2; omega)
      have hn := hid ⟨hg.2.2.2.2.1, hg.2.2.2.2.2⟩
      subst hn
      refine ⟨_, _, insertNode_dup k l r q h s, e, hg, nn, Or.inl rfl, hs, ?_, hp, fun _ => rfl⟩
      intro x
      simp only [toList, List.mem_append, List.mem_cons]
      constructor
      · exact Or.inr
      · rintro (h1 | h1)
        · exact Or.inr (Or.inl h1)
        · exact h1
    · by_cases hr : r = null
      · subst hr
        have post := insPost_leaf k (some key)
        obtain ⟨t2, e2, post2⟩ := right_step k key l null _ p q h s hgt hg hs hp post
        have e1 := insertNode_right_leaf key k l q h s hgt (good_size_ge gl)
        have hl0 : getHeight l ≤ 0 := by
          have := hg.2.2.2.2.1
          simp only [getHeight_null] at this
          omega
        have hl1 := good_height_ge gl
        have eh : (1 : Int) + max (getHeight l) (getHeight (Node.mk k null null (some key) 0 1)) = 1 := by
          simp only [getHeight_mk]
          omega
        have es : 1 + getSubsize l + getSubsize (Node.mk k null null (some key) 0 1) =
            2 + getSubsize l := by
          simp only [getSubsize_mk]
          omega
        rw [eh, es] at e2
        exact ⟨_, t2, e1, e2, post2⟩
      · obtain ⟨r1, r2, e1, e2, post⟩ := ihr (some key) hr gr sr pr
        obtain ⟨t2, e3, post2⟩ := right_step k key l r r2 p q h s hgt hg hs hp post
        have e := insertNode_right key k l r r1 r2 q h s hgt hr e1 e2
          (good_height_ge gl) (good_height_ge post.1) (good_size_ge gl) (good_size_ge post.1)
        exact ⟨_, t2, e, e3, post2⟩

/-! ## The public `insert` and sequences of inserts -/

theorem treeInv_empty : TreeInv empty :=
  ⟨trivial, List.Pairwise.nil, trivial⟩

/-- A call of `insert` on a tree that satisfies the invariant does not fault,
keeps the invariant, adds exactly the key, and changes nothing when the key is
already stored. -/
theorem insert_spec (t : AVL) (k : String) (ht : TreeInv t) :
    ∃ t2, insert t k = some t2 ∧ TreeInv t2 ∧
      (∀ x, x ∈ toList t2.root ↔ x = k ∨ x ∈ toList t.root) ∧
      (k ∈ toList t.root → t2 = t) := by
  obtain ⟨root⟩ := t
  obtain ⟨hg, hs, hp⟩ := ht
  by_cases hr : root = null
  · subst hr
    obtain ⟨g, -, -, so, me, pa, du⟩ := insPost_leaf k none
    refine ⟨⟨Node.new k⟩, by simp [insert], ⟨g, so, pa⟩, me, ?_⟩
    intro hk
    simp [toList] at hk
  · obtain ⟨t1, t2, e1, e2, g, -, -, so, me, pa, du⟩ := insertNode_fix k root none hr hg hs hp
    refine ⟨⟨t2⟩, ?_, ⟨g, so, pa⟩, me, ?_⟩
    · simp only [insert, if_neg hr, e1, e2, Option.bind_eq_bind, Option.some_bind]
    · intro hk
      simp only at hk
      rw [du hk]

/-- A sequence of `insert` calls on a tree that satisfies the invariant does
not fault, keeps the invariant and adds exactly the keys of the sequence. -/
theorem insertAll_spec (ks : List String) : ∀ t : AVL, TreeInv t →
    ∃ t2, insertAll t ks = some t2 ∧ TreeInv t2 ∧
      (∀ x, x ∈ toList t2.root ↔ x ∈ ks ∨ x ∈ toList t.root) := by
  induction ks with
  | nil =>
    intro t ht
    exact ⟨t, rfl, ht, by simp⟩
  | cons k ks ih =>
    intro t ht
    obtain ⟨t1, e1, h1, m1, -⟩ := insert_spec t k ht
    obtain ⟨t2, e2, h2, m2⟩ := ih t1 h1
    refine ⟨t2, by simp only [insertAll, e1, Option.some_bind, e2], h2, ?_⟩
    intro x
    rw [m2, m1, List.mem_cons, or_assoc]
    constructor
    · rintro (h | h | h)
      · exact Or.inr (Or.inl h)
      · exact Or.inl h
      · exact Or.inr (Or.inr h)
    · rintro (h | h | h)
      · exact Or.inr (Or.inl h)
      · exact Or.inl h
      · exact Or.inr (Or.inr h)

/-- Every insertion sequence from the empty tree runs without fault to a tree
that satisfies the invariant and stores exactly the inserted keys. -/
theorem build_spec (ks : List String) :
    ∃ t, build ks = some t ∧ TreeInv t ∧ (∀ x, x ∈ toList t.root ↔ x ∈ ks) := by
  obtain ⟨t, e, ht, hm⟩ := insertAll_spec ks empty treeInv_empty
  refine ⟨t, e, ht, ?_⟩
  intro x
  rw [hm]
  simp [empty, toList]

/-! ## From the working invariant to statements about every node -/

theorem mem_subtrees_mk (n : Node) (k : String) (l r : Node) (p : Ref) (h s : Int) :
    n ∈ subtrees (Node.mk k l r p h s) ↔
      n = Node.mk k l r p h s ∨ n ∈ subtrees l ∨ n ∈ subtrees r := by
  simp only [subtrees, List.mem_cons, List.mem_append]

theorem good_subtrees {t : Node} (hg : Good t) : ∀ n ∈ subtrees t, Good n := by
  induction t with
  | null => intro n hn; simp [subtrees] at hn
  | mk k l r p h s ihl ihr =>
    intro n hn
    rcases (mem_subtrees_mk _ _ _ _ _ _ _).1 hn with rfl | hn | hn
    · exact hg
    · exact ihl hg.1 n hn
    · exact ihr hg.2.1 n hn

theorem sorted_subtrees {t : Node} (hs : Sorted t) : ∀ n ∈ subtrees t, Sorted n := by
  induction t with
  | null => intro n hn; simp [subtrees] at hn
  | mk k l r p h s ihl ihr =>
    intro n hn
    obtain ⟨sl, sr, -, -⟩ := (sorted_mk _ _ _ _ _ _).1 hs
    rcases (mem_subtrees_mk _ _ _ _ _ _ _).1 hn with rfl | hn | hn
    · exact hs
    · exact ihl sl n hn
    · exact ihr sr n hn

theorem parentOk_subtrees {t : Node} : ∀ {p : Ref}, ParentOk p t →
    ∀ n ∈ subtrees t, ∃ q, ParentOk q n := by
  induction t with
  | null => intro p _ n hn; simp [subtrees] at hn
  | mk k l r par h s ihl ihr =>
    intro p hp n hn
    rcases (mem_subtrees_mk _ _ _ _ _ _ _).1 hn with rfl | hn | hn
    · exact ⟨p, hp⟩
    · exact ihl hp.2.1 n hn
    · exact ihr hp.2.2 n hn

theorem parentOk_getParent {t : Node} {p : Ref} (hp : ParentOk p t) (hn : t ≠ null) :
    getParent t = p := by
  cases t with
  | null => exact absurd rfl hn
  | mk k l r par h s => exact hp.1

theorem good_trueHeight {t : Node} (hg : Good t) : getHeight t = trueHeight t := by
  induction t with
  | null => rfl
  | mk k l r p h s ihl ihr =>
    obtain ⟨gl, gr, hh, -, -, -⟩ := hg
    simp only [getHeight_mk, trueHeight, ← ihl gl, ← ihr gr]
    exact hh

theorem good_count {t : Node} (hg : Good t) : getSubsize t = (count t : Int) := by
  induction t with
  | null => rfl
  | mk k l r p h s ihl ihr =>
    obtain ⟨gl, gr, -, hs, -, -⟩ := hg
    simp only [getSubsize_mk, count, Nat.cast_add, Nat.cast_one, ← ihl gl, ← ihr gr]
    exact hs

theorem count_eq_length (t : Node) : count t = (toList t).length := by
  induction t with
  | null => rfl
  | mk k l r p h s ihl ihr =>
    simp only [count, toList, List.length_append, List.length_cons, ihl, ihr]
    omega

/-! ## The invariants after every insertion sequence -/

/-- C2: after every sequence of insert calls from the empty tree, at every
node the true heights (in edges, -1 for an absent child) of the left and the
right subtree differ by at most one. -/
theorem balance_after_inserts (ks : List String) :
    ∃ t, build ks = some t ∧
      ∀ k l r p h s, Node.mk k l r p h s ∈ subtrees t.root →
        |trueHeight l - trueHeight r| ≤ 1 := by
  obtain ⟨t, e, ⟨hg, -, -⟩, -⟩ := build_spec ks
  refine ⟨t, e, ?_⟩
  intro k l r p h s hn
  obtain ⟨gl, gr, -, -, b1, b2⟩ := good_subtrees hg _ hn
  rw [← good_trueHeight gl, ← good_trueHeight gr, abs_le]
  constructor <;> omega

/-- C3: after every sequence of insert calls from the empty tree, the inorder
traversal lists the keys in strictly increasing order, and at every node all
keys of the left subtree are strictly smaller and all keys of the right
subtree strictly greater than the node's key. -/
theorem bst_order_after_inserts (ks : List String) :
    ∃ t, build ks = some t ∧ (toList t.root).Pairwise (· < ·) ∧
      ∀ k l r p h s, Node.mk k l r p h s ∈ subtrees t.root →
        (∀ x ∈ toList l, x < k) ∧ (∀ x ∈ toList r, k < x) := by
  obtain ⟨t, e, ⟨-, hs, -⟩, -⟩ := build_spec ks
  refine ⟨t, e, hs, ?_⟩
  intro k l r p h s hn
  obtain ⟨-, -, h1, h2⟩ := (sorted_mk _ _ _ _ _ _).1 (sorted_subtrees hs _ hn)
  exact ⟨h1, h2⟩

/-- C4: after every sequence of insert calls from the empty tree, at every
node the stored height is 1 + max of the children's stored heights (absent
child -1, so a leaf stores 0) and the stored subsize is 1 + the children's
stored subsizes (absent child 0); hence the stored height is the true height
and the stored subsize is the number of nodes of the subtree. -/
theorem stored_fields_after_inserts (ks : List String) :
    ∃ t, build ks = some t ∧
      ∀ k l r p h s, Node.mk k l r p h s ∈ subtrees t.root →
        h = 1 + max (getHeight l) (getHeight r) ∧ s = 1 + getSubsize l + getSubsize r ∧
        (l = null → r = null → h = 0) ∧
        h = trueHeight (Node.mk k l r p h s) ∧ s = (count (Node.mk k l r p h s) : Int) := by
  obtain ⟨t, e, ⟨hg, -, -⟩, -⟩ := build_spec ks
  refine ⟨t, e, ?_⟩
  intro k l r p h s hn
  have g := good_subtrees hg _ hn
  refine ⟨g.2.2.1, g.2.2.2.1, ?_, good_trueHeight g, good_count g⟩
  rintro rfl rfl
  have := g.2.2.1
  simpa using this

/-- C9: after every sequence of insert calls from the empty tree, the parent
reference of the root is absent and, at every node, a present left child and
a present right child carry the reference to that node in their parent field;
the keys being pairwise distinct, that reference designates one node only. -/
theorem parent_refs_after_inserts (ks : List String) :
    ∃ t, build ks = some t ∧ getParent t.root = none ∧ (toList t.root).Nodup ∧
      ∀ k l r p h s, Node.mk k l r p h s ∈ subtrees t.root →
        (l ≠ null → getParent l = Node.ref (Node.mk k l r p h s)) ∧
        (r ≠ null → getParent r = Node.ref (Node.mk k l r p h s)) := by
  obtain ⟨t, e, ⟨-, hs, hp⟩, -⟩ := build_spec ks
  refine ⟨t, e, ?_, ?_, ?_⟩
  · cases ht : t.root with
    | null => rfl
    | mk k l r p h s =>
      rw [ht] at hp
      exact hp.1
  · exact hs.imp (fun h => ne_of_lt h)
  · intro k l r p h s hn
    obtain ⟨q, hq⟩ := parentOk_subtrees hp _ hn
    exact ⟨parentOk_getParent hq.2.1, parentOk_getParent hq.2.2⟩

/-! ## Range counting -/

theorem good_sizeOk {t : Node} (hg : Good t) : SizeOk t := by
  induction t with
  | null => trivial
  | mk k l r p h s ihl ihr => exact ⟨ihl hg.1, ihr hg.2.1, hg.2.2.2.1⟩

theorem sizeOk_length {t : Node} (hz : SizeOk t) : getSubsize t = ((toList t).length : Int) := by
  induction t with
  | null => rfl
  | mk k l r p h s ihl ihr =>
    obtain ⟨zl, zr, hs⟩ := hz
    simp only [getSubsize_mk, toList, List.length_append, List.length_cons, Nat.cast_add,
      Nat.cast_one, ← ihl zl, ← ihr zr]
    omega

/-- The function `leq` counts the stored keys that are at most `k`. -/
theorem leq_count (k : String) : ∀ t : Node, SizeOk t → Sorted t →
    leq t k = ((toList t).countP (fun x => decide (x ≤ k)) : Int) := by
  intro t
  induction t with
  | null => intro _ _; rfl
  | mk key l r p h s ihl ihr =>
    intro hz hs
    obtain ⟨zl, zr, -⟩ := hz
    obtain ⟨sl, sr, ltl, ltr⟩ := (sorted_mk _ _ _ _ _ _).1 hs
    simp only [leq, toList, List.countP_append, List.countP_cons, Nat.cast_add]
    by_cases h1 : key = k
    · subst h1
      have e1 : (toList l).countP (fun x => decide (x ≤ key)) = (toList l).length :=
        List.countP_eq_length.2 (fun x hx => by simpa using (ltl x hx).le)
      have e2 : (toList r).countP (fun x => decide (x ≤ key)) = 0 :=
        List.countP_eq_zero.2 (fun x hx => by simpa using ltr x hx)
      rw [e1, e2, sizeOk_length zl]
      simp
      omega
    · rw [if_neg h1]
      by_cases h2 : key > k
      · have e2 : (toList r).countP (fun x => decide (x ≤ k)) = 0 :=
          List.countP_eq_zero.2 (fun x hx => by simpa using lt_trans h2 (ltr x hx))
        have e3 : ¬ key ≤ k := not_le.mpr h2
        rw [if_pos h2, ihl zl sl, e2]
        simp [e3]
      · have h3 : key < k := lt_of_le_of_ne (not_lt.mp h2) h1
        have e1 : (toList l).countP (fun x => decide (x ≤ k)) = (toList l).length :=
          List.countP_eq_length.2 (fun x hx => by simpa using (lt_trans (ltl x hx) h3).le)
        rw [if_neg h2, ihr zr sr, e1, sizeOk_length zl]
        simp [h3.le]
        omega

/-- The function `geq` counts the stored keys that are at least `k`. -/
theorem geq_count (k : String) : ∀ t : Node, SizeOk t → Sorted t →
    geq t k = ((toList t).countP (fun x => decide (k ≤ x)) : Int) := by
  intro t
  induction t with
  | null => intro _ _; rfl
  | mk key l r p h s ihl ihr =>
    intro hz hs
    obtain ⟨zl, zr, -⟩ := hz
    obtain ⟨sl, sr, ltl, ltr⟩ := (sorted_mk _ _ _ _ _ _).1 hs
    simp only [geq, toList, List.countP_append, List.countP_cons, Nat.cast_add]
    by_cases h1 : key = k
    · subst h1
      have e1 : (toList r).countP (fun x => decide (key ≤ x)) = (toList r).length :=
        List.countP_eq_length.2 (fun x hx => by simpa using (ltr x hx).le)
      have e2 : (toList l).countP (fun x => decide (key ≤ x)) = 0 :=
        List.countP_eq_zero.2 (fun x hx => by simpa using ltl x hx)
      rw [e1, e2, sizeOk_length zr]
      simp
      omega
    · rw [if_neg h1]
      by_cases h2 : key < k
      · have e2 : (toList l).countP (fun x => decide (k ≤ x)) = 0 :=
          List.countP_eq_zero.2 (fun x hx => by simpa using lt_trans (ltl x hx) h2)
        have e3 : ¬ k ≤ key := not_le.mpr h2
        rw [if_pos h2, ihr zr sr, e2]
        simp [e3]
      · have h3 : k < key := lt_of_le_of_ne (not_lt.mp h2) (Ne.symm h1)
        have e1 : (toList r).countP (fun x => decide (k ≤ x)) = (toList r).length :=
          List.countP_eq_length.2 (fun x hx => by simpa using (lt_trans h3 (ltr x hx)).le)
        rw [if_neg h2, ihl zl sl, e1, sizeOk_length zr]
        simp [h3.le]
        omega

/-- The function `rangeNode` counts the stored keys inside the interval. -/
theorem rangeNode_count (k1 k2 : String) : ∀ t : Node, SizeOk t → Sorted t →
    rangeNode t k1 k2 = ((toList t).countP (fun x => decide (k1 ≤ x ∧ x ≤ k2)) : Int) := by
  intro t
  induction t with
  | null => intro _ _; rfl
  | mk key l r p h s ihl ihr =>
    intro hz hs
    obtain ⟨zl, zr, -⟩ := hz
    obtain ⟨sl, sr, ltl, ltr⟩ := (sorted_mk _ _ _ _ _ _).1 hs
    simp only [rangeNode, toList, List.countP_append, List.countP_cons, Nat.cast_add]
    by_cases h1 : k2 < key
    · have e2 : (toList r).countP (fun x => decide (k1 ≤ x ∧ x ≤ k2)) = 0 :=
        List.countP_eq_zero.2 (fun x hx => by
          have := lt_trans h1 (ltr x hx)
          rw [decide_eq_true_eq]
          exact fun h => absurd h.2 (not_le.mpr this))
      have e3 : ¬ key ≤ k2 := not_le.mpr h1
      rw [if_pos h1, ihl zl sl, e2]
      simp [e3]
    · rw [if_neg h1]
      by_cases h2 : k1 > key
      · have e2 : (toList l).countP (fun x => decide (k1 ≤ x ∧ x ≤ k2)) = 0 :=
          List.countP_eq_zero.2 (fun x hx => by
            have := lt_trans (ltl x hx) h2
            rw [decide_eq_true_eq]
            exact fun h => absurd h.1 (not_le.mpr this))
        have e3 : ¬ k1 ≤ key := not_le.mpr h2
        rw [if_pos h2, ihr zr sr, e2]
        simp [e3]
      · have h3 : key ≤ k2 := not_lt.mp h1
        have h4 : k1 ≤ key := not_lt.mp h2
        have e1 : (toList l).countP (fun x => decide (k1 ≤ x ∧ x ≤ k2)) =
            (toList l).countP (fun x => decide (k1 ≤ x)) :=
          List.countP_congr (fun x hx => by
            have := (lt_of_lt_of_le (ltl x hx) h3).le
            rw [decide_eq_true_eq, decide_eq_true_eq]
            exact ⟨fun h => h.1, fun h => ⟨h, this⟩⟩)
        have e2 : (toList r).countP (fun x => decide (k1 ≤ x ∧ x ≤ k2)) =
            (toList r).countP (fun x => decide (x ≤ k2)) :=
          List.countP_congr (fun x hx => by
            have := (lt_of_le_of_lt h4 (ltr x hx)).le
            rw [decide_eq_true_eq, decide_eq_true_eq]
            exact ⟨fun h => h.2, fun h => ⟨this, h⟩⟩)
        rw [if_neg h2, geq_count k1 l zl sl, leq_count k2 r zr sr, e1, e2]
        simp [h3, h4]
        omega

/-- On an inverted interval `rangeNode` never reaches its counting branch. -/
theorem rangeNode_inverted (k1 k2 : String) (h21 : k2 < k1) : ∀ t : Node,
    rangeNode t k1 k2 = 0 := by
  intro t
  induction t with
  | null => rfl
  | mk key l r p h s ihl ihr =>
    simp only [rangeNode]
    by_cases h1 : k2 < key
    · rw [if_pos h1, ihl]
    · have h2 : k1 > key := lt_of_le_of_lt (not_lt.mp h1) h21
      rw [if_neg h1, if_pos h2, ihr]

/-- The number of distinct keys of `ks` with a property, counted on the
strictly increasing key sequence of a tree that stores exactly `ks`. -/
theorem card_filter_eq_countP (ks : List String) (t : Node) (hs : Sorted t)
    (hm : ∀ x, x ∈ toList t ↔ x ∈ ks) (P : String → Prop) [DecidablePred P] :
    (ks.toFinset.filter P).card = (toList t).countP (fun x => decide (P x)) := by
  have hnd : (toList t).Nodup := hs.imp (fun h => ne_of_lt h)
  have e : ks.toFinset = (toList t).toFinset := by
    ext x
    simp only [List.mem_toFinset, hm]
  have e2 : (toList t).toFinset.filter P =
      ((toList t).filter (fun x => decide (P x))).toFinset := by
    ext x
    simp only [Finset.mem_filter, List.mem_toFinset, List.mem_filter, decide_eq_true_eq]
  rw [e, e2, List.countP_eq_length_filter, List.toFinset_card_of_nodup (hnd.filter _)]

/-- C1: for every sequence of insert calls from the empty tree and every pair
of keys k1 <= k2, stored or not, range(k1, k2) is the number of distinct
inserted keys k with k1 <= k <= k2. -/
theorem range_counts_inserted_keys (ks : List String) (k1 k2 : String) (_ : k1 ≤ k2) :
    ∃ t, build ks = some t ∧
      range t k1 k2 = ((ks.toFinset.filter (fun k => k1 ≤ k ∧ k ≤ k2)).card : Int) := by
  obtain ⟨t, e, ⟨hg, hs, -⟩, hm⟩ := build_spec ks
  refine ⟨t, e, ?_⟩
  rw [card_filter_eq_countP ks t.root hs hm]
  exact rangeNode_count k1 k2 t.root (good_sizeOk hg) hs

/-- C8: for every tree built from the empty tree by insert calls, the empty
tree included, and every inverted interval k1 > k2, range(k1, k2) is 0. -/
theorem range_inverted_is_zero (ks : List String) (k1 k2 : String) (h21 : k1 > k2) :
    ∃ t, build ks = some t ∧ range t k1 k2 = 0 := by
  obtain ⟨t, e, -, -⟩ := build_spec ks
  exact ⟨t, e, rangeNode_inverted k1 k2 h21 t.root⟩

/-! ## Lookup -/

/-- On an ordered subtree `findNode` returns the node that holds `k` when `k`
is stored and `NULL` when it is not. -/
theorem findNode_spec (k : String) : ∀ t : Node, Sorted t →
    (k ∈ toList t → ∃ l r p h s, findNode t k = Node.mk k l r p h s ∧
      Node.mk k l r p h s ∈ subtrees t) ∧
    (k ∉ toList t → findNode t k = null) := by
  intro t
  induction t with
  | null =>
    intro _
    exact ⟨fun hk => by simp [toList] at hk, fun _ => rfl⟩
  | mk key l r p h s ihl ihr =>
    intro hs
    obtain ⟨sl, sr, ltl, ltr⟩ := (sorted_mk _ _ _ _ _ _).1 hs
    simp only [findNode, toList, List.mem_append, List.mem_cons]
    by_cases h1 : key = k
    · subst h1
      rw [if_pos rfl]
      refine ⟨fun _ => ⟨l, r, p, h, s, rfl, ?_⟩, fun hk => absurd (Or.inr (Or.inl rfl)) hk⟩
      exact (mem_subtrees_mk _ _ _ _ _ _ _).2 (Or.inl rfl)
    · rw [if_neg h1]
      by_cases h2 : k < key
      · rw [if_pos h2]
        have hr : k ∉ toList r := fun hk => absurd (lt_trans h2 (ltr k hk)) (lt_irrefl _)
        constructor
        · rintro (hk | hk | hk)
          · obtain ⟨a, b, c, d, e, h3, h4⟩ := (ihl sl).1 hk
            exact ⟨a, b, c, d, e, h3, (mem_subtrees_mk _ _ _ _ _ _ _).2 (Or.inr (Or.inl h4))⟩
          · exact absurd hk.symm h1
          · exact absurd hk hr
        · intro hk
          exact (ihl sl).2 (fun h3 => hk (Or.inl h3))
      · rw [if_neg h2]
        have h3 : key < k := lt_of_le_of_ne (not_lt.mp h2) h1
        have hl : k ∉ toList l := fun hk => absurd (lt_trans h3 (ltl k hk)) (lt_irrefl _)
        constructor
        · rintro (hk | hk | hk)
          · exact absurd hk hl
          · exact absurd hk.symm h1
          · obtain ⟨a, b, c, d, e, h4, h5⟩ := (ihr sr).1 hk
            exact ⟨a, b, c, d, e, h4, (mem_subtrees_mk _ _ _ _ _ _ _).2 (Or.inr (Or.inr h5))⟩
        · intro hk
          exact (ihr sr).2 (fun h4 => hk (Or.inr (Or.inr h4)))

/-- C6: for every tree built from the empty tree by insert calls and every key
k, find(k) returns a node of the tree whose key is k when k is one of the
inserted keys, and NULL when k was never inserted; on the empty tree find is
NULL for every key. -/
theorem find_after_inserts (ks : List String) (k : String) :
    ∃ t, build ks = some t ∧
      (k ∈ ks → ∃ l r p h s, find t k = Node.mk k l r p h s ∧
        Node.mk k l r p h s ∈ subtrees t.root) ∧
      (k ∉ ks → find t k = null) ∧
      find empty k = null := by
  obtain ⟨t, e, ⟨-, hs, -⟩, hm⟩ := build_spec ks
  obtain ⟨f1, f2⟩ := findNode_spec k t.root hs
  exact ⟨t, e, fun hk => f1 ((hm k).2 hk), fun hk => f2 (fun h => hk ((hm k).1 h)), rfl⟩

/-! ## The contract of `insert` -/

/-- C5: for every tree built from the empty tree by insert calls and every key
k, insert(k) does not fault, the set of stored keys afterwards is the set
stored before united with the singleton of k, no stored key is lost, and when
k was absent the number of nodes and the root's stored subsize grow by exactly
one. -/
theorem insert_adds_exactly_the_key (ks : List String) (k : String) :
    ∃ t t2, build ks = some t ∧ insert t k = some t2 ∧
      (toList t2.root).toFinset = (toList t.root).toFinset ∪ {k} ∧
      (∀ x ∈ toList t.root, x ∈ toList t2.root) ∧
      (k ∉ toList t.root →
        count t2.root = count t.root + 1 ∧
        getSubsize t2.root = getSubsize t.root + 1) := by
  obtain ⟨t, e, ht, -⟩ := build_spec ks
  obtain ⟨t2, e2, ht2, hm, -⟩ := insert_spec t k ht
  refine ⟨t, t2, e, e2, ?_, fun x hx => (hm x).2 (Or.inr hx), ?_⟩
  · ext x
    simp only [List.mem_toFinset, Finset.mem_union, Finset.mem_singleton, hm]
    exact Or.comm
  · intro hk
    have n1 : (toList t.root).Nodup := ht.2.1.imp (fun h => ne_of_lt h)
    have n2 : (toList t2.root).Nodup := ht2.2.1.imp (fun h => ne_of_lt h)
    have hperm : (toList t2.root).Perm (k :: toList t.root) :=
      (List.perm_ext_iff_of_nodup n2 (List.nodup_cons.2 ⟨hk, n1⟩)).2
        (fun x => by rw [hm, List.mem_cons])
    have hc : count t2.root = count t.root + 1 := by
      rw [count_eq_length, count_eq_length, hperm.length_eq, List.length_cons]
    refine ⟨hc, ?_⟩
    rw [good_count ht.1, good_count ht2.1, hc]
    simp

/-- The tree of Example 2: "m", then "a". -/
theorem build_m_a : build ["m", "a"] =
    some ⟨Node.mk "m" (Node.mk "a" null null (some "m") 0 1) null none 1 2⟩ := by
  simp +decide [build, insertAll, insert, insertNode, fixBalance, setHeight, setSubsize,
    setParent, Node.new, empty, String.lt_iff_toList_lt]

/-- C7: for every tree built from the empty tree by insert calls and every key
k already stored in it, insert(k) returns the very same tree: same shape, same
keys at the same positions, same stored height, subsize and parent reference
at every node.  In particular inserting "m", "a", "a" gives the tree of "m",
"a", whose root subsize is 2 and in which find("a") still succeeds. -/
theorem insert_duplicate_is_identity (ks : List String) (k : String) (hk : k ∈ ks) :
    ∃ t, build ks = some t ∧ insert t k = some t ∧
      (∃ t2, build ["m", "a", "a"] = some t2 ∧ build ["m", "a"] = some t2 ∧
        getSubsize t2.root = 2 ∧ ∃ l r p h s, find t2 "a" = Node.mk "a" l r p h s) := by
  obtain ⟨t, e, ht, hm⟩ := build_spec ks
  obtain ⟨t2, e2, -, -, hd⟩ := insert_spec t k ht
  refine ⟨t, e, ?_, ?_⟩
  · rw [e2, hd ((hm k).2 hk)]
  · obtain ⟨t3, e3, ht3, hm3⟩ := build_spec ["m", "a"]
    obtain ⟨t4, e4, -, -, hd4⟩ := insert_spec t3 "a" ht3
    have e5 : build ["m", "a", "a"] = some t3 := by
      have h0 : build ["m", "a", "a"] = (build ["m", "a"]).bind fun t => insert t "a" := by
        simp only [build, insertAll, Option.bind_eq_bind, Option.bind_assoc, Option.bind_some]
      rw [h0, e3, Option.some_bind, e4, hd4 ((hm3 "a").2 (by simp))]
    have e6 := build_m_a
    rw [e3] at e6
    cases e6
    refine ⟨_, e5, e3, rfl, null, null, some "m", 0, 1, ?_⟩
    simp +decide [find, findNode, String.lt_iff_toList_lt]

/-- The tree of Example 1. -/
theorem build_example1 : build ["d", "b", "f", "a", "c", "e", "g"] = some ⟨Node.mk "d"
      (Node.mk "b" (Node.mk "a" null null (some "b") 0 1) (Node.mk "c" null null (some "b") 0 1)
        (some "d") 1 3)
      (Node.mk "f" (Node.mk "e" null null (some "f") 0 1) (Node.mk "g" null null (some "f") 0 1)
        (some "d") 1 3)
      none 2 7⟩ := by
  simp +decide [build, insertAll, insert, insertNode, fixBalance, setHeight, setSubsize,
    setParent, getHeight, getSubsize, getBalance, Node.new, empty, String.lt_iff_toList_lt]

/-- C10: inserting "d", "b", "f", "a", "c", "e", "g" in that order into the
empty tree yields a tree whose root key is "d", whose root height (stored and
true) is 2, and for which range("b", "f") is 5. -/
theorem example1_root_height_range :
    ∃ l r p s, build ["d", "b", "f", "a", "c", "e", "g"] = some ⟨Node.mk "d" l r p 2 s⟩ ∧
      trueHeight (Node.mk "d" l r p 2 s) = 2 ∧
      range ⟨Node.mk "d" l r p 2 s⟩ "b" "f" = 5 := by
  refine ⟨_, _, _, _, build_example1, by decide, ?_⟩
  simp +decide [range, rangeNode, leq, geq, String.lt_iff_toList_lt]

/-! ## Instances of the conditional statements -/

/-- C1 at the keys of Example 1 and the interval from "b" to "f". -/
theorem range_counts_inserted_keys_witness :
    "b" ≤ "f" ∧ ∃ t, build ["d", "b", "f", "a", "c", "e", "g"] = some t ∧
      range t "b" "f" =
        ((["d", "b", "f", "a", "c", "e", "g"].toFinset.filter
          (fun k => "b" ≤ k ∧ k ≤ "f")).card : Int) :=
  ⟨by rw [String.le_iff_toList_le]; decide,
    range_counts_inserted_keys ["d", "b", "f", "a", "c", "e", "g"] "b" "f"
      (by rw [String.le_iff_toList_le]; decide)⟩

/-- C7 at the tree of "m", "a" and the stored key "a". -/
theorem insert_duplicate_is_identity_witness :
    "a" ∈ ["m", "a"] ∧ ∃ t, build ["m", "a"] = some t ∧ insert t "a" = some t ∧
      (∃ t2, build ["m", "a", "a"] = some t2 ∧ build ["m", "a"] = some t2 ∧
        getSubsize t2.root = 2 ∧ ∃ l r p h s, find t2 "a" = Node.mk "a" l r p h s) :=
  ⟨by simp, insert_duplicate_is_identity ["m", "a"] "a" (by simp)⟩

/-- C8 at the keys of Example 1 and the inverted interval from "f" to "b". -/
theorem range_inverted_is_zero_witness :
    "f" > "b" ∧ ∃ t, build ["d", "b", "f", "a", "c", "e", "g"] = some t ∧ range t "f" "b" = 0 :=
  ⟨by rw [gt_iff_lt, String.lt_iff_toList_lt]; decide,
    range_inverted_is_zero ["d", "b", "f", "a", "c", "e", "g"] "f" "b"
      (by rw [gt_iff_lt, String.lt_iff_toList_lt]; decide)⟩

/-! ## Example 4: ascending keys -/

/-- The tree of Example 4. -/
theorem build_ascending : build ["1", "2", "3", "4", "5", "6", "7"] = some ⟨Node.mk "4"
      (Node.mk "2" (Node.mk "1" null null (some "2") 0 1) (Node.mk "3" null null (some "2") 0 1)
        (some "4") 1 3)
      (Node.mk "6" (Node.mk "5" null null (some "6") 0 1) (Node.mk "7" null null (some "6") 0 1)
        (some "4") 1 3)
      none 2 7⟩ := by
  simp +decide [build, insertAll, insert, insertNode, fixBalance, leftRotate, setHeight,
    setSubsize, setParent, setLeft, getHeight, getSubsize, getBalance, Node.new, empty,
    String.lt_iff_toList_lt]

/-- C11: inserting "1", "2", ..., "7" in ascending order into the empty tree
yields a tree whose root height, stored and true, is at most 2. -/
theorem ascending_keys_height :
    ∃ t, build ["1", "2", "3", "4", "5", "6", "7"] = some t ∧
      getHeight t.root ≤ 2 ∧ trueHeight t.root ≤ 2 :=
  ⟨_, build_ascending, by decide, by decide⟩

/-! ## Rebalancing on heights alone -/

theorem heightBal_ge {t : Node} (h : HeightBal t) : -1 ≤ getHeight t := by
  induction t with
  | null => simp
  | mk k l r p ht s ihl ihr =>
    obtain ⟨hl, hr, hh, -, -⟩ := h
    have := ihl hl
    have := ihr hr
    simp only [getHeight_mk]
    omega

theorem heightBal_trueHeight {t : Node} (hg : HeightBal t) : getHeight t = trueHeight t := by
  induction t with
  | null => rfl
  | mk k l r p h s ihl ihr =>
    obtain ⟨gl, gr, hh, -, -⟩ := hg
    simp only [getHeight_mk, trueHeight, ← ihl gl, ← ihr gr]
    exact hh

theorem heightBal_subtrees {t : Node} (hg : HeightBal t) : ∀ n ∈ subtrees t, HeightBal n := by
  induction t with
  | null => intro n hn; simp [subtrees] at hn
  | mk k l r p h s ihl ihr =>
    intro n hn
    rcases (mem_subtrees_mk _ _ _ _ _ _ _).1 hn with rfl | hn | hn
    · exact hg
    · exact ihl hg.1 n hn
    · exact ihr hg.2.1 n hn

@[simp] theorem heightBal_setParent (t : Node) (p : Ref) :
    HeightBal (setParent t p) ↔ HeightBal t := by
  cases t <;> simp [setParent, HeightBal]

/-- Result of `leftRotate` when the height guards pass, whatever the size guards do. -/
theorem leftRotate_heights (xk yk : String) (xl t2 yr : Node) (xp yp : Ref) (xh xs yh ys : Int)
    (h1 : -1 ≤ getHeight xl) (h2 : -1 ≤ getHeight t2) (h3 : -1 ≤ getHeight yr) :
    ∃ s1 s2, leftRotate (Node.mk xk xl (Node.mk yk t2 yr yp yh ys) xp xh xs) =
      some (Node.mk yk
        (Node.mk xk xl (setParent t2 (some xk)) (some yk)
          (max (getHeight xl) (getHeight t2) + 1) s1)
        yr xp (max (max (getHeight xl) (getHeight t2) + 1) (getHeight yr) + 1) s2) := by
  have e1 : ¬ (max (getHeight xl) (getHeight t2) + 1 < 0) := by omega
  have e2 : ¬ (max (max (getHeight xl) (getHeight t2) + 1) (getHeight yr) + 1 < 0) := by omega
  simp only [leftRotate, setHeight_mk, getHeight_setParent, if_neg e1, getHeight_mk, if_neg e2,
    setSubsize_mk]
  split_ifs <;> exact ⟨_, _, rfl⟩

/-- Result of `rightRotate` when the height guards pass, whatever the size guards do. -/
theorem rightRotate_heights (xk yk : String) (xl t2 yr : Node) (xp yp : Ref) (xh xs yh ys : Int)
    (h1 : -1 ≤ getHeight xl) (h2 : -1 ≤ getHeight t2) (h3 : -1 ≤ getHeight yr) :
    ∃ s1 s2, rightRotate (Node.mk yk (Node.mk xk xl t2 xp xh xs) yr yp yh ys) =
      some (Node.mk xk xl
        (Node.mk yk (setParent t2 (some yk)) yr (some xk)
          (max (getHeight t2) (getHeight yr) + 1) s1)
        yp (max (getHeight xl) (max (getHeight t2) (getHeight yr) + 1) + 1) s2) := by
  have e1 : ¬ (max (getHeight t2) (getHeight yr) + 1 < 0) := by omega
  have e2 : ¬ (max (getHeight xl) (max (getHeight t2) (getHeight yr) + 1) + 1 < 0) := by omega
  simp only [rightRotate, setHeight_mk, getHeight_setParent, if_neg e1, getHeight_mk, if_neg e2,
    setSubsize_mk]
  split_ifs <;> exact ⟨_, _, rfl⟩


/-- Left-heavy case of `fixBalance` on heights alone: the children are
balanced with current heights, the left child is two higher than the right
one and is not evenly balanced. -/
theorem fixBalance_left_heavy (k : String) (l r : Node) (p : Ref) (h s : Int)
    (gl : HeightBal l) (gr : HeightBal r)
    (hlr : getHeight l = getHeight r + 2) (hb : getBalance l ≠ 0) :
    ∃ n, fixBalance (Node.mk k l r p h s) = some n ∧ HeightBal n := by
  have hr1 := heightBal_ge gr
  have hA : getHeight l - getHeight r > 1 := by omega
  cases l with
  | null => simp at hlr; omega
  | mk xk xl xr xp xh xs =>
    obtain ⟨gxl, gxr, hxh, bx1, bx2⟩ := gl
    have hxl1 := heightBal_ge gxl
    have hxr1 := heightBal_ge gxr
    simp only [getBalance_mk, getHeight_mk] at *
    by_cases hB : getHeight xl - getHeight xr ≥ 1
    · obtain ⟨s1, s2, e⟩ := rightRotate_heights xk k xl xr r xp p xh xs h s hxl1 hxr1 hr1
      have e1 : fixBalance (Node.mk k (Node.mk xk xl xr xp xh xs) r p h s) =
          rightRotate (Node.mk k (Node.mk xk xl xr xp xh xs) r p h s) := by
        simp only [fixBalance, getBalance_mk, getHeight_mk, if_pos hA, if_pos hB]
      refine ⟨_, e1.trans e, ?_⟩
      simp only [HeightBal, heightBal_setParent, getHeight_mk, getHeight_setParent]
      refine ⟨gxl, ⟨gxr, gr, ?_, ?_, ?_⟩, ?_, ?_, ?_⟩ <;> omega
    · cases xr with
      | null => simp at *; omega
      | mk zk zl zr zp zh zs =>
        obtain ⟨gzl, gzr, hzh, bz1, bz2⟩ := gxr
        have hzl1 := heightBal_ge gzl
        have hzr1 := heightBal_ge gzr
        simp only [getHeight_mk] at *
        obtain ⟨s1, s2, e0⟩ := leftRotate_heights xk zk xl zl zr xp zp xh xs zh zs hxl1 hzl1 hzr1
        obtain ⟨s3, s4, e⟩ := rightRotate_heights zk k
          (Node.mk xk xl (setParent zl (some xk)) (some zk)
            (max (getHeight xl) (getHeight zl) + 1) s1) zr r xp p
          (max (max (getHeight xl) (getHeight zl) + 1) (getHeight zr) + 1) s2 h s
          (by simp only [getHeight_mk]; omega) hzr1 hr1
        have e1 : fixBalance
            (Node.mk k (Node.mk xk xl (Node.mk zk zl zr zp zh zs) xp xh xs) r p h s) =
            (leftRotate (Node.mk xk xl (Node.mk zk zl zr zp zh zs) xp xh xs)).bind
              fun l => rightRotate (Node.mk k l r p h s) := by
          simp only [fixBalance, getBalance_mk, getHeight_mk, if_pos hA, if_neg hB]
          rfl
        rw [e0, Option.some_bind] at e1
        refine ⟨_, e1.trans e, ?_⟩
        simp only [HeightBal, heightBal_setParent, getHeight_mk, getHeight_setParent]
        refine ⟨⟨gxl, gzl, ?_, ?_, ?_⟩, ⟨gzr, gr, ?_, ?_, ?_⟩, ?_, ?_, ?_⟩ <;> omega

/-- Right-heavy case of `fixBalance` on heights alone, the mirror image. -/
theorem fixBalance_right_heavy (k : String) (l r : Node) (p : Ref) (h s : Int)
    (gl : HeightBal l) (gr : HeightBal r)
    (hlr : getHeight r = getHeight l + 2) (hb : getBalance r ≠ 0) :
    ∃ n, fixBalance (Node.mk k l r p h s) = some n ∧ HeightBal n := by
  have hl1 := heightBal_ge gl
  have hA : ¬ getHeight l - getHeight r > 1 := by omega
  have hC : getHeight l - getHeight r < -1 := by omega
  cases r with
  | null => simp at hlr; omega
  | mk yk yl yr yp yh ys =>
    obtain ⟨gyl, gyr, hyh, by1, by2⟩ := gr
    have hyl1 := heightBal_ge gyl
    have hyr1 := heightBal_ge gyr
    simp only [getBalance_mk, getHeight_mk] at *
    by_cases hB : getHeight yl - getHeight yr ≤ -1
    · obtain ⟨s1, s2, e⟩ := leftRotate_heights k yk l yl yr p yp h s yh ys hl1 hyl1 hyr1
      have e1 : fixBalance (Node.mk k l (Node.mk yk yl yr yp yh ys) p h s) =
          leftRotate (Node.mk k l (Node.mk yk yl yr yp yh ys) p h s) := by
        simp only [fixBalance, getBalance_mk, getHeight_mk, if_neg hA, if_pos hC, if_pos hB]
      refine ⟨_, e1.trans e, ?_⟩
      simp only [HeightBal, heightBal_setParent, getHeight_mk, getHeight_setParent]
      refine ⟨⟨gl, gyl, ?_, ?_, ?_⟩, gyr, ?_, ?_, ?_⟩ <;> omega
    · cases yl with
      | null => simp at *; omega
      | mk zk zl zr zp zh zs =>
        obtain ⟨gzl, gzr, hzh, bz1, bz2⟩ := gyl
        have hzl1 := heightBal_ge gzl
        have hzr1 := heightBal_ge gzr
        simp only [getHeight_mk] at *
        obtain ⟨s1, s2, e0⟩ := rightRotate_heights zk yk zl zr yr zp yp zh zs yh ys hzl1 hzr1 hyr1
        obtain ⟨s3, s4, e⟩ := leftRotate_heights k zk l zl
          (Node.mk yk (setParent zr (some yk)) yr (some zk)
            (max (getHeight zr) (getHeight yr) + 1) s1) p yp h s
          (max (getHeight zl) (max (getHeight zr) (getHeight yr) + 1) + 1) s2 hl1 hzl1
          (by simp only [getHeight_mk]; omega)
        have e1 : fixBalance
            (Node.mk k l (Node.mk yk (Node.mk zk zl zr zp zh zs) yr yp yh ys) p h s) =
            (rightRotate (Node.mk yk (Node.mk zk zl zr zp zh zs) yr yp yh ys)).bind
              fun r => leftRotate (Node.mk k l r p h s) := by
          simp only [fixBalance, getBalance_mk, getHeight_mk, if_neg hA, if_pos hC, if_neg hB]
          rfl
        rw [e0, Option.some_bind] at e1
        refine ⟨_, e1.trans e, ?_⟩
        simp only [HeightBal, heightBal_setParent, getHeight_mk, getHeight_setParent]
        refine ⟨⟨gl, gzl, ?_, ?_, ?_⟩, ⟨gzr, gyr, ?_, ?_, ?_⟩, ?_, ?_, ?_⟩ <;> omega

/-- C14, counterexample: the two children of `evenChildTree` satisfy the
balance invariant with correct stored heights and the balance factor of the
root is 2, yet under the root that `fixBalance` returns the node "d" has a left
subtree of height 1 and an absent right subtree, so not every node is
balanced. -/
theorem fixBalance_even_child_unbalanced :
    HeightBal (getLeft evenChildTree) ∧ HeightBal (getRight evenChildTree) ∧
    getBalance evenChildTree = 2 ∧
    fixBalance evenChildTree = some evenChildResult ∧
    ¬ (∀ k a b p h s, Node.mk k a b p h s ∈ subtrees evenChildResult →
      |trueHeight a - trueHeight b| ≤ 1) := by
  refine ⟨?_, ?_, ?_, ?_, ?_⟩
  · simp [HeightBal, evenChildTree, getLeft]
  · simp [HeightBal, evenChildTree, getRight]
  · decide
  · decide
  · intro hall
    have h := hall "d" (Node.mk "b" (Node.mk "a" null null (some "b") 0 1) null (some "d") 1 2)
      null (some "f") 2 3 (by simp [evenChildResult, subtrees])
    simp [trueHeight] at h

/-- C14, amended: for every subtree root whose two child subtrees satisfy the
balance invariant at every node with correct stored heights, whose balance
factor is 2 or -2 and whose taller child is not evenly balanced (its own
balance factor is not 0), `fixBalance` returns a subtree root under which
every node has correct stored height and children whose true heights differ
by at most one; and for every node whose balance factor is in [-1, 1],
`fixBalance` returns that node unchanged. -/
theorem fixBalance_restores_balance (k : String) (l r : Node) (p : Ref) (h s : Int)
    (gl : HeightBal l) (gr : HeightBal r)
    (hb : (getBalance (Node.mk k l r p h s) = 2 ∧ getBalance l ≠ 0) ∨
      (getBalance (Node.mk k l r p h s) = -2 ∧ getBalance r ≠ 0)) :
    (∃ n, fixBalance (Node.mk k l r p h s) = some n ∧ HeightBal n ∧
      ∀ k1 a b p1 h1 s1, Node.mk k1 a b p1 h1 s1 ∈ subtrees n →
        |trueHeight a - trueHeight b| ≤ 1) ∧
    (∀ m : Node, -1 ≤ getBalance m → getBalance m ≤ 1 → fixBalance m = some m) := by
  constructor
  · have key : ∃ n, fixBalance (Node.mk k l r p h s) = some n ∧ HeightBal n := by
      rcases hb with ⟨h1, h2⟩ | ⟨h1, h2⟩
      · exact fixBalance_left_heavy k l r p h s gl gr (by simp only [getBalance_mk] at h1; omega) h2
      · exact fixBalance_right_heavy k l r p h s gl gr (by simp only [getBalance_mk] at h1; omega) h2
    obtain ⟨n, e, gn⟩ := key
    refine ⟨n, e, gn, ?_⟩
    intro k1 a b p1 h1 s1 hn
    obtain ⟨ga, gb, -, b1, b2⟩ := heightBal_subtrees gn _ hn
    rw [← heightBal_trueHeight ga, ← heightBal_trueHeight gb, abs_le]
    constructor <;> omega
  · intro m h1 h2
    have hA : ¬ getBalance m > 1 := by omega
    have hC : ¬ getBalance m < -1 := by omega
    simp only [fixBalance, if_neg hA, if_neg hC]

/-! ## The calls made during an insertion are safe -/

/-- A left rotation faults exactly when its argument or the pivot child
`x->right` is absent. -/
theorem leftRotate_ne_none_iff (x : Node) :
    leftRotate x ≠ none ↔ x ≠ null ∧ getRight x ≠ null := by
  cases x with
  | null => simp [leftRotate]
  | mk xk xl xr xp xh xs =>
    cases xr with
    | null => simp [leftRotate, getRight]
    | mk yk t2 yr yp yh ys =>
      obtain ⟨h1, s1, h2, s2, e⟩ := leftRotate_shape xk yk xl t2 yr xp yp xh xs yh ys
      simp [e, getRight]

/-- A right rotation faults exactly when its argument or the pivot child
`y->left` is absent. -/
theorem rightRotate_ne_none_iff (y : Node) :
    rightRotate y ≠ none ↔ y ≠ null ∧ getLeft y ≠ null := by
  cases y with
  | null => simp [rightRotate]
  | mk yk yl yr yp yh ys =>
    cases yl with
    | null => simp [rightRotate, getLeft]
    | mk xk xl t2 xp xh xs =>
      obtain ⟨h1, s1, h2, s2, e⟩ := rightRotate_shape xk yk xl t2 yr xp yp xh xs yh ys
      simp [e, getLeft]

/-- The calls of `fixBalance n` are safe under the conditions of `fixBalance_spec`. -/
theorem fixCalls_safe (k : String) (l r : Node) (p : Ref) (h s : Int)
    (gl : Good l) (gr : Good r)
    (b1 : getHeight l ≤ getHeight r + 2) (b2 : getHeight r ≤ getHeight l + 2)
    (c1 : getHeight l = getHeight r + 2 → getBalance l ≠ 0)
    (c2 : getHeight r = getHeight l + 2 → getBalance r ≠ 0) :
    ∀ c ∈ fixCalls (some (Node.mk k l r p h s)), c.Safe := by
  have hl1 := good_height_ge gl
  have hr1 := good_height_ge gr
  intro c hc
  simp only [fixCalls, List.mem_cons] at hc
  rcases hc with rfl | hc
  · simp only [Call.Safe, getBalance_mk]
    constructor <;> omega
  · unfold fixBalanceCalls at hc
    simp only [getBalance_mk] at hc
    by_cases hA : getHeight l - getHeight r > 1
    · have hlr : getHeight l = getHeight r + 2 := by omega
      have hb := c1 hlr
      rw [if_pos hA] at hc
      cases l with
      | null => simp at hlr; omega
      | mk xk xl xr xp xh xs =>
        obtain ⟨gxl, gxr, hxh, -, bx1, bx2⟩ := gl
        have hxl1 := good_height_ge gxl
        simp only [getBalance_mk] at hc hb
        by_cases hB : getHeight xl - getHeight xr ≥ 1
        · rw [if_pos hB, List.mem_singleton] at hc
          subst hc
          exact ⟨by simp, by simp [getLeft]⟩
        · rw [if_neg hB] at hc
          cases xr with
          | null => simp at *; omega
          | mk zk zl zr zp zh zs =>
            obtain ⟨a1, a2, a3, a4, e⟩ := leftRotate_shape xk zk xl zl zr xp zp xh xs zh zs
            rw [e] at hc
            simp only [List.mem_cons, List.mem_singleton, List.not_mem_nil, or_false] at hc
            rcases hc with rfl | rfl
            · exact ⟨by simp, by simp [getRight]⟩
            · exact ⟨by simp, by simp [getLeft]⟩
    · rw [if_neg hA] at hc
      by_cases hC : getHeight l - getHeight r < -1
      · have hlr : getHeight r = getHeight l + 2 := by omega
        have hb := c2 hlr
        rw [if_pos hC] at hc
        cases r with
        | null => simp at hlr; omega
        | mk yk yl yr yp yh ys =>
          obtain ⟨gyl, gyr, hyh, -, by1, by2⟩ := gr
          have hyr1 := good_height_ge gyr
          simp only [getBalance_mk] at hc hb
          by_cases hB : getHeight yl - getHeight yr ≤ -1
          · rw [if_pos hB, List.mem_singleton] at hc
            subst hc
            exact ⟨by simp, by simp [getRight]⟩
          · rw [if_neg hB] at hc
            cases yl with
            | null => simp at *; omega
            | mk zk zl zr zp zh zs =>
              obtain ⟨a1, a2, a3, a4, e⟩ := rightRotate_shape zk yk zl zr yr zp yp zh zs yh ys
              rw [e] at hc
              simp only [List.mem_cons, List.mem_singleton, List.not_mem_nil, or_false] at hc
              rcases hc with rfl | rfl
              · exact ⟨by simp, by simp [getLeft]⟩
              · exact ⟨by simp, by simp [getRight]⟩
      · rw [if_neg hC] at hc
        simp at hc


/-- After the left subtree has been replaced, the node meets the conditions
under which `fixBalance` is specified. -/
theorem left_pre (k key : String) (l r l2 : Node) (q : Ref) (h s : Int)
    (hg : Good (Node.mk key l r q h s)) (post : InsPost k (some key) l l2) :
    getHeight l2 ≤ getHeight r + 2 ∧ getHeight r ≤ getHeight l2 + 2 ∧
      (getHeight l2 = getHeight r + 2 → getBalance l2 ≠ 0) ∧
      (getHeight r = getHeight l2 + 2 → getBalance r ≠ 0) := by
  obtain ⟨gl, gr, -, -, b1, b2⟩ := hg
  obtain ⟨gl2, -, grow, -, -, -, -⟩ := post
  have hl1 := good_height_ge gl
  have hr1 := good_height_ge gr
  have c0 : getHeight l2 = getHeight l ∨ getHeight l2 = getHeight l + 1 := by
    rcases grow with g | g
    · exact Or.inl g
    · exact Or.inr g.1
  refine ⟨by omega, by omega, ?_, ?_⟩
  · intro h2
    rcases grow with g | ⟨-, g | g⟩
    · omega
    · exact g
    · omega
  · intro h2
    omega

/-- The mirror image of `left_pre`. -/
theorem right_pre (k key : String) (l r r2 : Node) (q : Ref) (h s : Int)
    (hg : Good (Node.mk key l r q h s)) (post : InsPost k (some key) r r2) :
    getHeight l ≤ getHeight r2 + 2 ∧ getHeight r2 ≤ getHeight l + 2 ∧
      (getHeight l = getHeight r2 + 2 → getBalance l ≠ 0) ∧
      (getHeight r2 = getHeight l + 2 → getBalance r2 ≠ 0) := by
  obtain ⟨gl, gr, -, -, b1, b2⟩ := hg
  obtain ⟨gr2, -, grow, -, -, -, -⟩ := post
  have hl1 := good_height_ge gl
  have hr1 := good_height_ge gr
  have c0 : getHeight r2 = getHeight r ∨ getHeight r2 = getHeight r + 1 := by
    rcases grow with g | g
    · exact Or.inl g
    · exact Or.inr g.1
  refine ⟨by omega, by omega, ?_, ?_⟩
  · intro h2
    omega
  · intro h2
    rcases grow with g | ⟨-, g | g⟩
    · omega
    · exact g
    · omega

/-- Every call made by the recursive insertion into a good, ordered subtree
and by the `fixBalance` that its caller applies to the result is safe. -/
theorem insertNode_calls_safe (k : String) : ∀ (t : Node) (p : Ref), t ≠ null → Good t →
    Sorted t → ParentOk p t →
    ∀ c ∈ insertNodeCalls t (Node.new k) ++ fixCalls (insertNode t (Node.new k)), c.Safe := by
  intro t
  induction t with
  | null => intro p hn; exact absurd rfl hn
  | mk key l r q h s ihl ihr =>
    intro p _ hg hs hp
    have gl := hg.1
    have gr := hg.2.1
    obtain ⟨sl, sr, ltl, ltr⟩ := (sorted_mk _ _ _ _ _ _).1 hs
    have pl := hp.2.1
    have pr := hp.2.2
    intro c hc
    rw [List.mem_append] at hc
    rcases lt_trichotomy k key with hlt | heq | hgt
    · by_cases hl : l = null
      · subst hl
        have e0 : insertNodeCalls (Node.mk key null r q h s) (Node.new k) = [] := by
          simp [insertNodeCalls, Node.new, hlt]
        rw [e0, insertNode_left_leaf key k r q h s hlt (good_size_ge gr)] at hc
        rcases hc with hc | hc
        · simp at hc
        · obtain ⟨a1, a2, a3, a4⟩ := left_pre k key null r _ q h s hg (insPost_leaf k (some key))
          exact fixCalls_safe key _ r q _ _ (insPost_leaf k (some key)).1 gr a1 a2 a3 a4 c hc
      · obtain ⟨l1, l2, e1, e2, post⟩ := insertNode_fix k l (some key) hl gl sl pl
        have e0 : insertNodeCalls (Node.mk key l r q h s) (Node.new k) =
            insertNodeCalls l (Node.new k) ++ fixCalls (insertNode l (Node.new k)) := by
          simp [insertNodeCalls, Node.new, hlt, hl]
        have e := insertNode_left key k l r l1 l2 q h s hlt hl e1 e2
          (good_height_ge post.1) (good_height_ge gr) (good_size_ge post.1) (good_size_ge gr)
        rw [e0, e] at hc
        rcases hc with hc | hc
        · exact ihl (some key) hl gl sl pl c (List.mem_append.2 (List.mem_append.1 hc))
        · obtain ⟨a1, a2, a3, a4⟩ := left_pre k key l r l2 q h s hg post
          exact fixCalls_safe key l2 r q _ _ post.1 gr a1 a2 a3 a4 c hc
    · subst heq
      have e0 : insertNodeCalls (Node.mk k l r q h s) (Node.new k) = [] := by
        simp [insertNodeCalls, Node.new]
      rw [e0, insertNode_dup k l r q h s] at hc
      rcases hc with hc | hc
      · simp at hc
      · exact fixCalls_safe k l r q h s gl gr (by have := hg.2.2.2.2.1; omega)
          (by have := hg.2.2.2.2.2; omega) (by intro h2; have := hg.2.2.2.2.1; omega)
          (by intro h2; have := hg.2.2.2.2.2; omega) c hc
    · have hnlt : ¬ k < key := not_lt.mpr hgt.le
      by_cases hr : r = null
      · subst hr
        have e0 : insertNodeCalls (Node.mk key l null q h s) (Node.new k) = [] := by
          simp [insertNodeCalls, Node.new, hnlt, hgt]
        rw [e0, insertNode_right_leaf key k l q h s hgt (good_size_ge gl)] at hc
        rcases hc with hc | hc
        · simp at hc
        · obtain ⟨a1, a2, a3, a4⟩ := right_pre k key l null _ q h s hg (insPost_leaf k (some key))
          exact fixCalls_safe key l _ q _ _ gl (insPost_leaf k (some key)).1 a1 a2 a3 a4 c hc
      · obtain ⟨r1, r2, e1, e2, post⟩ := insertNode_fix k r (some key) hr gr sr pr
        have e0 : insertNodeCalls (Node.mk key l r q h s) (Node.new k) =
            insertNodeCalls r (Node.new k) ++ fixCalls (insertNode r (Node.new k)) := by
          simp [insertNodeCalls, Node.new, hnlt, hgt, hr]
        have e := insertNode_right key k l r r1 r2 q h s hgt hr e1 e2
          (good_height_ge gl) (good_height_ge post.1) (good_size_ge gl) (good_size_ge post.1)
        rw [e0, e] at hc
        rcases hc with hc | hc
        · exact ihr (some key) hr gr sr pr c (List.mem_append.2 (List.mem_append.1 hc))
        · obtain ⟨a1, a2, a3, a4⟩ := right_pre k key l r r2 q h s hg post
          exact fixCalls_safe key l r2 q _ _ gl post.1 a1 a2 a3 a4 c hc

/-- The calls of inserting "3" into the tree of "1", "2": `fixBalance` on the
subtree of "2", then `fixBalance` on the root, which is right-heavy by two and
is rotated to the left. -/
theorem insertCalls_example :
    insertCalls ⟨Node.mk "1" null (Node.mk "2" null null (some "1") 0 1) none 1 2⟩ "3" =
      [Call.fixBalance (Node.mk "2" null (Node.mk "3" null null (some "2") 0 1) (some "1") 1 2),
       Call.fixBalance (Node.mk "1" null
        (Node.mk "2" null (Node.mk "3" null null (some "2") 0 1) (some "1") 1 2) none 2 3),
       Call.leftRotate (Node.mk "1" null
        (Node.mk "2" null (Node.mk "3" null null (some "2") 0 1) (some "1") 1 2) none 2 3)] := by
  simp +decide [insertCalls, insertNodeCalls, fixCalls, fixBalanceCalls, insertNode, fixBalance,
    setHeight, setSubsize, setParent, getHeight, getSubsize, getBalance, Node.new,
    String.lt_iff_toList_lt]

/-- C15: during insert(k) on any tree built from the empty tree by insert
calls, the insertion does not fault, every call of `fixBalance` sees a balance
factor in [-2, 2], and every rotation, the inner rotation of a double rotation
included, is applied to a present node whose pivot child is present. -/
theorem insert_calls_are_safe (ks : List String) (k : String) :
    ∃ t t2, build ks = some t ∧ insert t k = some t2 ∧ ∀ c ∈ insertCalls t k, c.Safe := by
  obtain ⟨t, e, ht, -⟩ := build_spec ks
  obtain ⟨t2, e2, -, -, -⟩ := insert_spec t k ht
  refine ⟨t, t2, e, e2, ?_⟩
  intro c hc
  unfold insertCalls at hc
  by_cases hr : t.root = null
  · rw [if_pos hr] at hc
    simp at hc
  · rw [if_neg hr] at hc
    exact insertNode_calls_safe k t.root none hr ht.1 ht.2.1 ht.2.2 c hc

/-! ## The rotations in isolation -/

theorem storedOk_ge {t : Node} (h : StoredOk t) : -1 ≤ getHeight t ∧ 0 ≤ getSubsize t := by
  induction t with
  | null => simp
  | mk k l r p ht s ihl ihr =>
    obtain ⟨hl, hr, hh, hs⟩ := h
    have := ihl hl
    have := ihr hr
    simp only [getHeight_mk, getSubsize_mk]
    omega

theorem storedOk_sizeOk {t : Node} (h : StoredOk t) : SizeOk t := by
  induction t with
  | null => trivial
  | mk k l r p ht s ihl ihr => exact ⟨ihl h.1, ihr h.2.1, h.2.2.2⟩

/-- C16: `leftRotate` of a node `x` with right child `y`, and `rightRotate` of
a node `y` with left child `x`, return the former pivot child as the root,
with the old root as its left (resp. right) child and the pivot's former inner
subtree `t2`, its parent reference redirected, as the old root's right (resp.
left) subtree; the inorder key sequence is the one of the argument, so BST
order, the keys and their number are kept. -/
theorem rotations_keep_inorder (xk yk : String) (xl t2 yr : Node) (xp yp : Ref)
    (xh xs yh ys : Int) :
    (∃ h1 s1 h2 s2 res,
      res = Node.mk yk (Node.mk xk xl (setParent t2 (some xk)) (some yk) h1 s1) yr xp h2 s2 ∧
      leftRotate (Node.mk xk xl (Node.mk yk t2 yr yp yh ys) xp xh xs) = some res ∧
      toList res = toList (Node.mk xk xl (Node.mk yk t2 yr yp yh ys) xp xh xs) ∧
      count res = count (Node.mk xk xl (Node.mk yk t2 yr yp yh ys) xp xh xs) ∧
      (Sorted (Node.mk xk xl (Node.mk yk t2 yr yp yh ys) xp xh xs) → Sorted res)) ∧
    (∃ h1 s1 h2 s2 res,
      res = Node.mk xk xl (Node.mk yk (setParent t2 (some yk)) yr (some xk) h1 s1) yp h2 s2 ∧
      rightRotate (Node.mk yk (Node.mk xk xl t2 xp xh xs) yr yp yh ys) = some res ∧
      toList res = toList (Node.mk yk (Node.mk xk xl t2 xp xh xs) yr yp yh ys) ∧
      count res = count (Node.mk yk (Node.mk xk xl t2 xp xh xs) yr yp yh ys) ∧
      (Sorted (Node.mk yk (Node.mk xk xl t2 xp xh xs) yr yp yh ys) → Sorted res)) ∧
    (∀ p : Ref, toList (setParent t2 p) = toList t2 ∧ getLeft (setParent t2 p) = getLeft t2 ∧
      getRight (setParent t2 p) = getRight t2 ∧ getHeight (setParent t2 p) = getHeight t2 ∧
      getSubsize (setParent t2 p) = getSubsize t2) := by
  obtain ⟨a1, a2, a3, a4, ea⟩ := leftRotate_shape xk yk xl t2 yr xp yp xh xs yh ys
  obtain ⟨b1, b2, b3, b4, eb⟩ := rightRotate_shape xk yk xl t2 yr xp yp xh xs yh ys
  have ta : toList (Node.mk yk (Node.mk xk xl (setParent t2 (some xk)) (some yk) a1 a2) yr xp
      a3 a4) = toList (Node.mk xk xl (Node.mk yk t2 yr yp yh ys) xp xh xs) := by
    simp [toList]
  have tb : toList (Node.mk xk xl (Node.mk yk (setParent t2 (some yk)) yr (some xk) b1 b2) yp
      b3 b4) = toList (Node.mk yk (Node.mk xk xl t2 xp xh xs) yr yp yh ys) := by
    simp [toList]
  refine ⟨⟨a1, a2, a3, a4, _, rfl, ea, ta, ?_, ?_⟩, ⟨b1, b2, b3, b4, _, rfl, eb, tb, ?_, ?_⟩, ?_⟩
  · rw [count_eq_length, count_eq_length, ta]
  · intro h
    unfold Sorted at h ⊢
    rw [ta]
    exact h
  · rw [count_eq_length, count_eq_length, tb]
  · intro h
    unfold Sorted at h ⊢
    rw [tb]
    exact h
  · intro p
    cases t2 <;> exact ⟨rfl, rfl, rfl, rfl, rfl⟩

/-- C17: if before a rotation every node strictly below the rotated root has
correct stored height and subsize and the rotated root has correct stored
subsize, then after `leftRotate` (resp. `rightRotate`) the stored height and
subsize of the demoted node and of the promoted node are the recursive ones,
and the promoted node's subsize is the old subsize of the rotated root. -/
theorem rotations_recompute_fields (k1 k2 : String) (a b c : Node) (p1 p2 p1r p2r : Ref)
    (h1 h2 s1 s2 h1r h2r s1r s2r : Int)
    (ha : StoredOk a) (hy : StoredOk (Node.mk k2 b c p2 h2 s2))
    (e3 : s1 = 1 + getSubsize a + getSubsize (Node.mk k2 b c p2 h2 s2))
    (hx : StoredOk (Node.mk k1 a b p1r h1r s1r)) (hc : StoredOk c)
    (e6 : s2r = 1 + getSubsize (Node.mk k1 a b p1r h1r s1r) + getSubsize c) :
    (∃ b2 hx sx hy sy,
      leftRotate (Node.mk k1 a (Node.mk k2 b c p2 h2 s2) p1 h1 s1) =
        some (Node.mk k2 (Node.mk k1 a b2 (some k2) hx sx) c p1 hy sy) ∧
      hx = 1 + max (getHeight a) (getHeight b2) ∧ sx = 1 + getSubsize a + getSubsize b2 ∧
      hy = 1 + max (getHeight (Node.mk k1 a b2 (some k2) hx sx)) (getHeight c) ∧
      sy = 1 + getSubsize (Node.mk k1 a b2 (some k2) hx sx) + getSubsize c ∧ sy = s1) ∧
    (∃ b2 hy sy hx sx,
      rightRotate (Node.mk k2 (Node.mk k1 a b p1r h1r s1r) c p2r h2r s2r) =
        some (Node.mk k1 a (Node.mk k2 b2 c (some k1) hy sy) p2r hx sx) ∧
      hy = 1 + max (getHeight b2) (getHeight c) ∧ sy = 1 + getSubsize b2 + getSubsize c ∧
      hx = 1 + max (getHeight a) (getHeight (Node.mk k2 b2 c (some k1) hy sy)) ∧
      sx = 1 + getSubsize a + getSubsize (Node.mk k2 b2 c (some k1) hy sy) ∧ sx = s2r) := by
  obtain ⟨ha1, ha2⟩ := storedOk_ge ha
  obtain ⟨hc1, hc2⟩ := storedOk_ge hc
  constructor
  · obtain ⟨hb, hc0, -, e2⟩ := hy
    obtain ⟨hb1, hb2⟩ := storedOk_ge hb
    obtain ⟨hc3, hc4⟩ := storedOk_ge hc0
    simp only [getSubsize_mk] at e3
    refine ⟨_, _, _, _, _, leftRotate_eq k1 k2 a b c p1 p2 h1 s1 h2 s2 ha1 hb1 hc3 ha2 hb2
      (by omega), ?_⟩
    simp only [getHeight_mk, getSubsize_mk, getHeight_setParent, getSubsize_setParent]
    refine ⟨?_, ?_, ?_, ?_, trivial⟩ <;> omega
  · obtain ⟨ha0, hb, -, e5⟩ := hx
    obtain ⟨hb1, hb2⟩ := storedOk_ge hb
    obtain ⟨ha3, ha4⟩ := storedOk_ge ha0
    simp only [getSubsize_mk] at e6
    refine ⟨_, _, _, _, _, rightRotate_eq k1 k2 a b c p1r p2r h1r s1r h2r s2r ha3 hb1 hc1 hc2 hb2
      (by omega), ?_⟩
    simp only [getHeight_mk, getSubsize_mk, getHeight_setParent, getSubsize_setParent]
    refine ⟨?_, ?_, ?_, ?_, trivial⟩ <;> omega

/-! ## The rank helpers in isolation -/

/-- C18: for every subtree that satisfies BST order and has correct stored
subsize at every node, and every key k, stored or not, leq(n, k) is the number
of keys of the subtree that are at most k; it is 0 for the absent subtree. -/
theorem leq_counts_keys (n : Node) (k : String) (hs : Sorted n) (hz : SizeOk n) :
    leq n k = (((toList n).filter (fun x => decide (x ≤ k))).length : Int) ∧ leq null k = 0 := by
  refine ⟨?_, rfl⟩
  rw [← List.countP_eq_length_filter]
  exact leq_count k n hz hs

/-- C19: for every subtree that satisfies BST order and has correct stored
subsize at every node, and every key k, stored or not, geq(n, k) is the number
of keys of the subtree that are at least k; it is 0 for the absent subtree. -/
theorem geq_counts_keys (n : Node) (k : String) (hs : Sorted n) (hz : SizeOk n) :
    geq n k = (((toList n).filter (fun x => decide (k ≤ x))).length : Int) ∧ geq null k = 0 := by
  refine ⟨?_, rfl⟩
  rw [← List.countP_eq_length_filter]
  exact geq_count k n hz hs

/-! ## The height is logarithmic -/

/-- A good subtree of stored height `h` has at least `fib (h + 3) - 1` nodes. -/
theorem good_fib {t : Node} (hg : Good t) :
    Nat.fib (getHeight t + 3).toNat ≤ count t + 1 := by
  induction t with
  | null => simp [count]
  | mk k l r p h s ihl ihr =>
    obtain ⟨gl, gr, hh, -, b1, b2⟩ := hg
    have il := ihl gl
    have ir := ihr gr
    have hl1 := good_height_ge gl
    have hr1 := good_height_ge gr
    simp only [getHeight_mk, count]
    obtain ⟨a, ea⟩ : ∃ a : Nat, getHeight l = (a : Int) - 1 := ⟨(getHeight l + 1).toNat, by omega⟩
    obtain ⟨b, eb⟩ : ∃ b : Nat, getHeight r = (b : Int) - 1 := ⟨(getHeight r + 1).toNat, by omega⟩
    have e1 : (getHeight l + 3).toNat = a + 2 := by omega
    have e2 : (getHeight r + 3).toNat = b + 2 := by omega
    rw [e1] at il
    rw [e2] at ir
    rcases le_total a b with hab | hab
    · have e3 : (h + 3).toNat = b + 3 := by omega
      have hm : Nat.fib (b + 1) ≤ Nat.fib (a + 2) := Nat.fib_mono (by omega)
      have e4 : Nat.fib (b + 3) = Nat.fib (b + 1) + Nat.fib (b + 2) := Nat.fib_add_two
      rw [e3, e4]
      omega
    · have e3 : (h + 3).toNat = a + 3 := by omega
      have hm : Nat.fib (a + 1) ≤ Nat.fib (b + 2) := Nat.fib_mono (by omega)
      have e4 : Nat.fib (a + 3) = Nat.fib (a + 1) + Nat.fib (a + 2) := Nat.fib_add_two
      rw [e3, e4]
      omega

/-- C20: for every non-empty tree built from the empty tree by inserting n
distinct keys, with root height h in edges (stored and true, 0 for a single
node), n + 1 is at least fib(h + 3), where fib(1) = fib(2) = 1. -/
theorem height_is_logarithmic (ks : List String) (hne : ks ≠ []) :
    ∃ t, build ks = some t ∧ t.root ≠ null ∧ getHeight t.root = trueHeight t.root ∧
      0 ≤ trueHeight t.root ∧
      Nat.fib ((trueHeight t.root).toNat + 3) ≤ ks.toFinset.card + 1 := by
  obtain ⟨t, e, ⟨hg, hs, -⟩, hm⟩ := build_spec ks
  have hn : t.root ≠ null := by
    intro h0
    obtain ⟨x, hx⟩ := List.exists_mem_of_ne_nil ks hne
    have := (hm x).2 hx
    rw [h0] at this
    simp [toList] at this
  have hh : 0 ≤ getHeight t.root := by
    cases ht : t.root with
    | null => exact absurd ht hn
    | mk k l r p h s =>
      rw [ht] at hg
      have := good_height_ge hg.1
      have := good_height_ge hg.2.1
      have := hg.2.2.1
      simp only [getHeight_mk]
      omega
  have hc : ks.toFinset.card = count t.root := by
    have hnd : (toList t.root).Nodup := hs.imp (fun h => ne_of_lt h)
    have e2 : ks.toFinset = (toList t.root).toFinset := by
      ext x
      simp only [List.mem_toFinset, hm]
    rw [e2, List.toFinset_card_of_nodup hnd, count_eq_length]
  have hf := good_fib hg
  refine ⟨t, e, hn, good_trueHeight hg, ?_, ?_⟩
  · rw [← good_trueHeight hg]
    exact hh
  · have e3 : (getHeight t.root + 3).toNat = (getHeight t.root).toNat + 3 := by omega
    rw [← good_trueHeight hg, hc, ← e3]
    exact hf

/-! ## Instances of the conditional statements on rotations, ranks and height -/

/-- C14 amended, at the left chain "c", "b", "a". -/
theorem fixBalance_restores_balance_witness :
    HeightBal (Node.mk "b" (Node.new "a") null none 1 2) ∧ HeightBal null ∧
    ((getBalance (Node.mk "c" (Node.mk "b" (Node.new "a") null none 1 2) null none 2 3) = 2 ∧
        getBalance (Node.mk "b" (Node.new "a") null none 1 2) ≠ 0) ∨
      (getBalance (Node.mk "c" (Node.mk "b" (Node.new "a") null none 1 2) null none 2 3) = -2 ∧
        getBalance null ≠ 0)) ∧
    ((∃ n, fixBalance (Node.mk "c" (Node.mk "b" (Node.new "a") null none 1 2) null none 2 3) =
        some n ∧ HeightBal n ∧
      ∀ k1 a b p1 h1 s1, Node.mk k1 a b p1 h1 s1 ∈ subtrees n →
        |trueHeight a - trueHeight b| ≤ 1) ∧
    (∀ m : Node, -1 ≤ getBalance m → getBalance m ≤ 1 → fixBalance m = some m)) :=
  ⟨by simp [HeightBal, Node.new], trivial, Or.inl ⟨by decide, by decide⟩,
    fixBalance_restores_balance "c" (Node.mk "b" (Node.new "a") null none 1 2) null none 2 3
      (by simp [HeightBal, Node.new]) trivial (Or.inl ⟨by decide, by decide⟩)⟩

/-- C17 at the two-node chains of "a" and "b". -/
theorem rotations_recompute_fields_witness :
    StoredOk null ∧ StoredOk (Node.mk "b" null null (some "a") 0 1) ∧
    (2 : Int) = 1 + getSubsize null + getSubsize (Node.mk "b" null null (some "a") 0 1) ∧
    StoredOk (Node.mk "a" null null (some "b") 0 1) ∧
    (2 : Int) = 1 + getSubsize (Node.mk "a" null null (some "b") 0 1) + getSubsize null ∧
    ((∃ b2 hx sx hy sy,
      leftRotate (Node.mk "a" null (Node.mk "b" null null (some "a") 0 1) none 1 2) =
        some (Node.mk "b" (Node.mk "a" null b2 (some "b") hx sx) null none hy sy) ∧
      hx = 1 + max (getHeight null) (getHeight b2) ∧ sx = 1 + getSubsize null + getSubsize b2 ∧
      hy = 1 + max (getHeight (Node.mk "a" null b2 (some "b") hx sx)) (getHeight null) ∧
      sy = 1 + getSubsize (Node.mk "a" null b2 (some "b") hx sx) + getSubsize null ∧ sy = 2) ∧
    (∃ b2 hy sy hx sx,
      rightRotate (Node.mk "b" (Node.mk "a" null null (some "b") 0 1) null none 1 2) =
        some (Node.mk "a" null (Node.mk "b" b2 null (some "a") hy sy) none hx sx) ∧
      hy = 1 + max (getHeight b2) (getHeight null) ∧ sy = 1 + getSubsize b2 + getSubsize null ∧
      hx = 1 + max (getHeight null) (getHeight (Node.mk "b" b2 null (some "a") hy sy)) ∧
      sx = 1 + getSubsize null + getSubsize (Node.mk "b" b2 null (some "a") hy sy) ∧ sx = 2)) :=
  ⟨trivial, by simp [StoredOk], by decide, by simp [StoredOk], by decide,
    rotations_recompute_fields "a" "b" null null null none (some "a") (some "b") none 1 0 2 1 0 1 1 2
      trivial (by simp [StoredOk]) (by decide) (by simp [StoredOk]) trivial (by decide)⟩

/-- C18 at the subtree of "b" with left child "a" and the key "a". -/
theorem leq_counts_keys_witness :
    Sorted (Node.mk "b" (Node.new "a") null none 1 2) ∧
    SizeOk (Node.mk "b" (Node.new "a") null none 1 2) ∧
    leq (Node.mk "b" (Node.new "a") null none 1 2) "a" =
      (((toList (Node.mk "b" (Node.new "a") null none 1 2)).filter
        (fun x => decide (x ≤ "a"))).length : Int) ∧ leq null "a" = 0 :=
  ⟨by simp +decide [Sorted, toList, Node.new, String.lt_iff_toList_lt],
    by simp [SizeOk, Node.new],
    leq_counts_keys (Node.mk "b" (Node.new "a") null none 1 2) "a"
      (by simp +decide [Sorted, toList, Node.new, String.lt_iff_toList_lt])
      (by simp [SizeOk, Node.new])⟩

/-- C19 at the subtree of "b" with left child "a" and the key "b". -/
theorem geq_counts_keys_witness :
    Sorted (Node.mk "b" (Node.new "a") null none 1 2) ∧
    SizeOk (Node.mk "b" (Node.new "a") null none 1 2) ∧
    geq (Node.mk "b" (Node.new "a") null none 1 2) "b" =
      (((toList (Node.mk "b" (Node.new "a") null none 1 2)).filter
        (fun x => decide ("b" ≤ x))).length : Int) ∧ geq null "b" = 0 :=
  ⟨by simp +decide [Sorted, toList, Node.new, String.lt_iff_toList_lt],
    by simp [SizeOk, Node.new],
    geq_counts_keys (Node.mk "b" (Node.new "a") null none 1 2) "b"
      (by simp +decide [Sorted, toList, Node.new, String.lt_iff_toList_lt])
      (by simp [SizeOk, Node.new])⟩

/-- C20 at the keys of Example 1. -/
theorem height_is_logarithmic_witness :
    ["d", "b", "f", "a", "c", "e", "g"] ≠ [] ∧
    ∃ t, build ["d", "b", "f", "a", "c", "e", "g"] = some t ∧ t.root ≠ null ∧
      getHeight t.root = trueHeight t.root ∧ 0 ≤ trueHeight t.root ∧
      Nat.fib ((trueHeight t.root).toNat + 3) ≤
        ["d", "b", "f", "a", "c", "e", "g"].toFinset.card + 1 :=
  ⟨by simp, height_is_logarithmic ["d", "b", "f", "a", "c", "e", "g"] (by simp)⟩

/-! ## The preorder dump -/

/-- Appending a string only when it is not empty is appending it. -/
theorem append_if_nonempty (a b : String) : (if b.length ≠ 0 then a ++ b else a) = a ++ b := by
  by_cases h : b.length ≠ 0
  · rw [if_pos h]
  · rw [if_neg h]
    obtain ⟨d⟩ := b
    have hd : d.length = 0 := not_not.mp h
    have hn : d = [] := List.length_eq_zero.1 hd
    subst hn
    exact (String.append_empty a).symm

/-- The dump of a node: its own record, then the dumps of its subtrees. -/
theorem printPreOrderNode_mk (k : String) (l r : Node) (p : Ref) (h s : Int) :
    printPreOrderNode (Node.mk k l r p h s) =
      k ++ "(h = " ++ toString h ++ ", s = " ++ toString s ++ ")" ++
        printPreOrderNode l ++ printPreOrderNode r := by
  rw [printPreOrderNode]
  simp only [append_if_nonempty, getHeight_mk, getSubsize_mk]

/-- C21: `printPreOrder` returns the empty string for the empty tree and, for
a subtree rooted at a node, the key followed by "(h = ", the decimal stored
height, ", s = ", the decimal stored subsize and ")", then the dump of the left
subtree and then the dump of the right subtree; on the tree of Example 1 it
returns the seven records in preorder. -/
theorem printPreOrder_is_preorder_dump :
    printPreOrder empty = "" ∧
    (∀ (k : String) (l r : Node) (p : Ref) (h s : Int),
      printPreOrderNode (Node.mk k l r p h s) =
        k ++ "(h = " ++ toString h ++ ", s = " ++ toString s ++ ")" ++
          printPreOrderNode l ++ printPreOrderNode r) ∧
    (∃ t, build ["d", "b", "f", "a", "c", "e", "g"] = some t ∧ printPreOrder t =
      "d(h = 2, s = 7)b(h = 1, s = 3)a(h = 0, s = 1)c(h = 0, s = 1)f(h = 1, s = 3)e(h = 0, s = 1)g(h = 0, s = 1)") := by
  refine ⟨rfl, printPreOrderNode_mk, _, build_example1, ?_⟩
  simp only [printPreOrder, printPreOrderNode_mk]
  decide
end AVL

namespace LinkedList

/-! ## Bubble sort -/

/-- One pass over the list `pre ++ a :: mid ++ suf` from the pointer `a`, with
`b` pointing at the first node of `suf` (`NULL` when `suf` is empty): the pass
exits at the last node before `suf`, it leaves `pre` and `suf` alone, it
permutes `a :: mid` into `front ++ [mx]` with `mx` a maximum, and it reports
no swap exactly when none was reported before and `a :: mid` was in order. -/
theorem sortPass_spec (suf : List Int) : ∀ (mid pre : List Int) (a : Int) (sw : Bool),
    ∃ front mx sw2,
      sortPass (if suf = [] then none else some (pre.length + 1 + mid.length)) pre a
          (mid ++ suf) sw =
        some (pre ++ front ++ mx :: suf, pre.length + mid.length, sw2) ∧
      (front ++ [mx]).Perm (a :: mid) ∧ (∀ x ∈ front, x ≤ mx) ∧
      (sw2 = false → sw = false ∧ front ++ [mx] = a :: mid ∧ List.Chain (· ≤ ·) a mid) ∧
      (sw = true → sw2 = true) ∧ (mid = [] → sw2 = sw) := by
  intro mid
  induction mid with
  | nil =>
    intro pre a sw
    refine ⟨[], a, sw, ?_, List.Perm.refl _, by simp, fun h => ⟨h, rfl, List.Chain.nil⟩,
      fun h => h, fun _ => rfl⟩
    cases suf with
    | nil => simp [sortPass]
    | cons c rest => simp [sortPass]
  | cons c mid ih =>
    intro pre a sw
    have hb : ¬ (some (pre.length + 1) =
        (if suf = [] then none else some (pre.length + 1 + (c :: mid).length))) := by
      split_ifs
      · simp
      · simp
    have hlen : (if suf = [] then (none : Option Nat) else some (pre.length + 1 + (c :: mid).length)) =
        (if suf = [] then none else some ((pre ++ [c]).length + 1 + mid.length)) := by
      simp only [List.length_cons, List.length_append, List.length_nil]
      split_ifs
      · rfl
      · congr 1
        omega
    have hlen2 : (if suf = [] then (none : Option Nat) else some (pre.length + 1 + (c :: mid).length)) =
        (if suf = [] then none else some ((pre ++ [a]).length + 1 + mid.length)) := by
      simp only [List.length_cons, List.length_append, List.length_nil]
      split_ifs
      · rfl
      · congr 1
        omega
    by_cases hac : a > c
    · obtain ⟨front, mx, sw2, e, hperm, hmax, hns, hsw, -⟩ := ih (pre ++ [c]) a true
      have hamx : a ≤ mx := by
        have : a ∈ front ++ [mx] := hperm.mem_iff.2 (List.mem_cons_self _ _)
        rcases List.mem_append.1 this with h | h
        · exact hmax a h
        · simp at h
          exact h.le
      refine ⟨c :: front, mx, sw2, ?_, ?_, ?_, ?_, fun _ => hsw rfl, fun h => by simp at h⟩
      · rw [List.cons_append, sortPass, if_neg hb, if_pos hac, hlen, e]
        simp only [List.length_append, List.length_cons, List.length_nil, List.append_assoc,
          List.singleton_append, List.cons_append]
        congr 3
        omega
      · exact (List.Perm.cons c hperm).trans (List.Perm.swap a c mid)
      · intro x hx
        rcases List.mem_cons.1 hx with rfl | hx
        · exact le_trans hac.le hamx
        · exact hmax x hx
      · intro h
        rw [hsw rfl] at h
        exact absurd h (by simp)
    · obtain ⟨front, mx, sw2, e, hperm, hmax, hns, hsw, -⟩ := ih (pre ++ [a]) c sw
      have hle : a ≤ c := not_lt.mp hac
      have hcmx : c ≤ mx := by
        have : c ∈ front ++ [mx] := hperm.mem_iff.2 (List.mem_cons_self _ _)
        rcases List.mem_append.1 this with h | h
        · exact hmax c h
        · simp at h
          exact h.le
      refine ⟨a :: front, mx, sw2, ?_, ?_, ?_, ?_, hsw, fun h => by simp at h⟩
      · rw [List.cons_append, sortPass, if_neg hb, if_neg hac, hlen2, e]
        simp only [List.length_append, List.length_cons, List.length_nil, List.append_assoc,
          List.singleton_append, List.cons_append]
        congr 3
        omega
      · exact List.Perm.cons a hperm
      · intro x hx
        rcases List.mem_cons.1 hx with rfl | hx
        · exact le_trans hle hcmx
        · exact hmax x hx
      · intro h
        obtain ⟨h1, h2, h3⟩ := hns h
        refine ⟨h1, ?_, List.Chain.cons hle h3⟩
        rw [List.cons_append, h2]

/-- The passes of `sortLoop` from a state in which the part `suf` from `b`
on is in order and bounds the part `front` before `b` from above: with a pass
of fuel for every node of `front` the loop exits with the whole list in
order, a permutation of the list it started with. -/
theorem sortLoop_spec : ∀ (fuel : Nat) (front suf : List Int), front ≠ [] →
    front.length ≤ fuel → suf.Sorted (· ≤ ·) → (∀ x ∈ front, ∀ y ∈ suf, x ≤ y) →
    ∃ ys, sortLoop fuel (if suf = [] then none else some front.length) (front ++ suf) = some ys ∧
      ys.Sorted (· ≤ ·) ∧ ys.Perm (front ++ suf) := by
  intro fuel
  induction fuel with
  | zero =>
    intro front suf hne hlen
    cases front with
    | nil => exact absurd rfl hne
    | cons a mid => simp at hlen
  | succ fuel ih =>
    intro front suf hne hlen hsuf hbound
    cases front with
    | nil => exact absurd rfl hne
    | cons a mid =>
      obtain ⟨front2, mx, sw2, e, hperm, hmax, hns, -, hmid⟩ := sortPass_spec suf mid [] a false
      have hb : (if suf = [] then (none : Option Nat) else some (a :: mid).length) =
          (if suf = [] then none else some (([] : List Int).length + 1 + mid.length)) := by
        simp only [List.length_cons, List.length_nil]
        split_ifs
        · rfl
        · congr 1
          omega
      have hlen2 : front2.length = mid.length := by
        have := hperm.length_eq
        simp only [List.length_append, List.length_cons, List.length_nil] at this
        omega
      rw [List.cons_append, sortLoop, hb, e]
      simp only [List.nil_append, List.length_nil, Nat.zero_add]
      cases hsw : sw2 with
      | false =>
        obtain ⟨-, h2, h3⟩ := hns hsw
        refine ⟨front2 ++ mx :: suf, by simp, ?_, ?_⟩
        · have e2 : front2 ++ mx :: suf = (a :: mid) ++ suf := by
            rw [← h2, List.append_assoc, List.singleton_append]
          rw [e2]
          have hs : (a :: mid).Sorted (· ≤ ·) := List.chain_iff_pairwise.1 h3
          exact List.pairwise_append.2 ⟨hs, hsuf, hbound⟩
        · have e2 : front2 ++ mx :: suf = (front2 ++ [mx]) ++ suf := by
            rw [List.append_assoc, List.singleton_append]
          rw [e2]
          exact hperm.append_right suf
      | true =>
        have hmne : mid ≠ [] := by
          intro h0
          have := hmid h0
          rw [hsw] at this
          exact absurd this (by simp)
        have hf2 : front2 ≠ [] := by
          intro h0
          rw [h0] at hlen2
          exact hmne (List.length_eq_zero.1 hlen2.symm)
        have hmem : ∀ x, x ∈ front2 ++ [mx] → x ∈ a :: mid := fun x hx => hperm.mem_iff.1 hx
        have hmxb : ∀ y ∈ suf, mx ≤ y := fun y hy =>
          hbound mx (hmem mx (by simp)) y hy
        have hsuf2 : (mx :: suf).Sorted (· ≤ ·) := List.pairwise_cons.2 ⟨hmxb, hsuf⟩
        have hbound2 : ∀ x ∈ front2, ∀ y ∈ mx :: suf, x ≤ y := by
          intro x hx y hy
          rcases List.mem_cons.1 hy with rfl | hy
          · exact hmax x hx
          · exact hbound x (hmem x (List.mem_append_left _ hx)) y hy
        obtain ⟨ys, e3, hs3, hp3⟩ := ih front2 (mx :: suf) hf2
          (by simp only [List.length_cons] at hlen; omega) hsuf2 hbound2
        have hb2 : (if mx :: suf = [] then (none : Option Nat) else some front2.length) =
            some mid.length := by
          simp [hlen2]
        rw [hb2] at e3
        refine ⟨ys, by simpa using e3, hs3, hp3.trans ?_⟩
        have e2 : front2 ++ mx :: suf = (front2 ++ [mx]) ++ suf := by
          rw [List.append_assoc, List.singleton_append]
        rw [e2]
        exact hperm.append_right suf

/-- C12: for every linked list of integers, `sort()` terminates (every fuel
of at least one pass for each node gives the same result) and leaves the data
in non-decreasing order from head to tail, a permutation of the data before
the call, of the same length; on the empty list and on a one-element list it
changes nothing. -/
theorem sort_sorts (xs : List Int) :
    ∃ ys, (∀ fuel, xs.length ≤ fuel → sort fuel ⟨xs⟩ = some ⟨ys⟩) ∧
      ys.Sorted (· ≤ ·) ∧ ys.Perm xs ∧ ys.length = xs.length ∧
      (xs.length ≤ 1 → ys = xs) := by
  cases xs with
  | nil =>
    refine ⟨[], ?_, List.sorted_nil, List.Perm.refl _, rfl, fun _ => rfl⟩
    intro fuel _
    simp [sort, sortFrom]
  | cons a rest =>
    have key : ∃ ys, (∀ fuel, (a :: rest).length ≤ fuel → sort fuel ⟨a :: rest⟩ = some ⟨ys⟩) ∧
        ys.Sorted (· ≤ ·) ∧ ys.Perm (a :: rest) := by
      obtain ⟨ys, -, hs, hp⟩ := sortLoop_spec (a :: rest).length (a :: rest) [] (by simp)
        (le_refl _) List.sorted_nil (by simp)
      refine ⟨ys, ?_, hs, by simpa using hp⟩
      intro fuel hf
      obtain ⟨ys2, e2, hs2, hp2⟩ := sortLoop_spec fuel (a :: rest) [] (by simp) hf
        List.sorted_nil (by simp)
      have hp' : ys2.Perm ys := hp2.trans hp.symm
      have : ys2 = ys := List.eq_of_perm_of_sorted hp' hs2 hs
      subst this
      simp only [List.append_nil, if_true] at e2
      simp [sort, sortFrom, e2]
    obtain ⟨ys, hrun, hs, hp⟩ := key
    refine ⟨ys, hrun, hs, hp, hp.length_eq, ?_⟩
    intro h1
    have hr : rest = [] := by
      simp only [List.length_cons] at h1
      exact List.length_eq_zero.1 (by omega)
    subst hr
    exact List.perm_singleton.1 hp

/-! ## Printing -/

/-- C13, at the failing input: on the empty list `print` starts with
`curr = head = NULL` and evaluates `curr->next`, a dereference of an absent
node, where the claim has it return a string. -/
theorem print_empty_faults : print empty = none := rfl

/-- The loop of `print` appends the rendering of the chain it is given. -/
theorem printLoop_eq (rest : List Int) : ∀ (s : String) (d : Int),
    printLoop s d rest = s ++ render (d :: rest) := by
  induction rest with
  | nil => intro s d; rfl
  | cons x rest ih =>
    intro s d
    rw [printLoop, ih, render]
    simp only [String.append_assoc]

/-- On a non-empty list `print` returns the decimal data from head to tail
separated by " -> ", with no trailing separator. -/
theorem print_nonempty (d : Int) (rest : List Int) :
    print ⟨d :: rest⟩ = some (render (d :: rest)) := by
  simp [print, printLoop_eq]

/-- The function `insert` puts the new element first, so `print` shows the
most recently inserted element first. -/
theorem print_insert (l : LinkedList) (x : Int) :
    print (insert l x) = some (render (x :: l.head)) := by
  simp [insert, print_nonempty]

end LinkedList
